import Mathlib

/-!
Verification of the kdlite KDL v2 parser (ferronweb/kdlite) against its
specification. The Rust sources under src/ are shallowly embedded: the input
text is a list of characters threaded together with a byte offset, recognizer
loops take an explicit fuel argument that callers instantiate with more than
the length of the remaining input (every loop iteration of the source consumes
at least one character, so the fuel is never exhausted on the runs the
theorems talk about), and fallible code returns Except.
-/

set_option maxRecDepth 20000

namespace Kdl

/-- Character constants written via code points to keep the embedding free of
brace and quote character literals. -/
def lbraceC : Char := Char.ofNat 123

def rbraceC : Char := Char.ofNat 125

def squoteC : Char := Char.ofNat 39

def bsC : Char := Char.ofNat 92

def dquoteC : Char := Char.ofNat 34

/-- Errors of `stream.rs` (`enum Error`); the payload is a byte position. -/
inductive Error where
  | ExpectedSpace (p : Nat)
  | ExpectedCloseParen (p : Nat)
  | ExpectedComment (p : Nat)
  | ExpectedNewline (p : Nat)
  | ExpectedString (p : Nat)
  | ExpectedValue (p : Nat)
  | UnexpectedCloseBracket (p : Nat)
  | UnexpectedNewline (p : Nat)
  | InvalidNumber (p : Nat)
  | BadKeyword (p : Nat)
  | BadIdentifier (p : Nat)
  | BadEscape (p : Nat)
  | BadIndent (p : Nat)
  | MultipleChildren (p : Nat)
  | UnexpectedEof
  | BannedChar (c : Char) (p : Nat)
deriving Repr, DecidableEq

/-- `number.rs`: `enum NumberError`. -/
inductive NumberError where
  | OutOfRange
  | BadSyntax
deriving Repr, DecidableEq

/-- `number.rs`: `enum NumberInner`. The float payload is kept as the textual
token handed to `f64::from_str`; floating-point values themselves are not
modelled (no claim depends on a float's numeric value). -/
inductive Number where
  | unsigned (v : Nat)
  | signed (v : Int)
  | float (t : List Char)
deriving Repr, DecidableEq

/-- A `Cow<str>`: either a borrowed slice of the input or an owned string.
The payload of both constructors is the character content. -/
inductive Cow where
  | borrowed (s : List Char)
  | owned (s : List Char)
deriving Repr, DecidableEq

/-- Content of a `Cow` (Rust `Cow` derefs to its content for comparisons). -/
def Cow.str : Cow → List Char
  | .borrowed s => s
  | .owned s => s

/-- `dom.rs`: `enum Value`, at the stream layer (strings still carry their
borrowed/owned distinction). -/
inductive Value where
  | str (s : Cow)
  | num (n : Number)
  | bool (b : Bool)
  | null
deriving Repr, DecidableEq

/-- `stream.rs`: public `enum Event`. -/
inductive Event where
  | nodeE (ty : Option Cow) (name : Cow)
  | entryE (key : Option Cow) (ty : Option Cow) (value : Value)
  | beginE
  | endE
deriving Repr, DecidableEq

/-- `stream.rs`: `enum InnerEvent` (low-level grammar events). -/
inductive InnerEvent where
  | nodeI (sd : Bool) (ty : Option Cow) (name : Cow)
  | propValue (sd : Bool) (ty : Option Cow) (key : Option Cow) (value : Value)
  | beginI (sd : Bool)
  | endI
  | done
deriving Repr, DecidableEq

/-! ### Character classes (`Grammar::banned`, `space`, `newline`, `ident`) -/

/-- `disallowed-literal-code-points`. -/
def banned (c : Char) : Bool :=
  let n := c.toNat
  n ≤ 0x8 || (0xE ≤ n && n ≤ 0x1F) || n = 0x7F || n = 0x200E || n = 0x200F ||
    (0x202A ≤ n && n ≤ 0x202E) || (0x2066 ≤ n && n ≤ 0x2069) || n = 0xFEFF

/-- `unicode-space`. -/
def space (c : Char) : Bool :=
  let n := c.toNat
  n = 0x9 || n = 0x20 || n = 0xA0 || n = 0x1680 || (0x2000 ≤ n && n ≤ 0x200A) ||
    n = 0x202F || n = 0x205F || n = 0x3000

/-- `newline`. -/
def newline (c : Char) : Bool :=
  let n := c.toNat
  (0xA ≤ n && n ≤ 0xD) || n = 0x85 || n = 0x2028 || n = 0x2029

/-- `identifier-char`. -/
def ident (c : Char) : Bool :=
  !(banned c || space c || newline c ||
    (c = bsC || c = '/' || c = '(' || c = ')' || c = lbraceC || c = rbraceC ||
      c = ';' || c = '[' || c = ']' || c = dquoteC || c = '#' || c = '='))

/-- `Grammar::number_like`: strips one leading sign, then one leading dot,
and asks for an ASCII digit. -/
def number_like (t : List Char) : Bool :=
  let t1 := match t with
    | '+' :: r => r
    | '-' :: r => r
    | _ => t
  let t2 := match t1 with
    | '.' :: r => r
    | _ => t1
  match t2 with
  | c :: _ => c.isDigit
  | [] => false

/-! ### Number lexing and parsing (`Grammar::all_number`)

`u64::from_str_radix` / `i64::from_str_radix` / `f64::from_str` are standard
library routines; they are modelled operationally from their documented
behaviour (optional sign, then non-empty digits of the radix, folded with
overflow checks at the type's bounds; the float grammar is sign, mantissa
digits with at most one dot, optional exponent). -/

/-- `char::to_digit`. -/
def digitVal (radix : Nat) (c : Char) : Option Nat :=
  let n := c.toNat
  let d :=
    if c.isDigit then some (n - 48)
    else if 97 ≤ n && n ≤ 122 then some (n - 87)
    else if 65 ≤ n && n ≤ 90 then some (n - 55)
    else none
  match d with
  | some d => if d < radix then some d else none
  | none => none

/-- Digit fold with a per-step overflow check against the bound `B`,
mirroring `checked_mul`/`checked_add` in `from_str_radix`. -/
def foldDigits (r B : Nat) : Nat → List Char → Option Nat
  | acc, [] => some acc
  | acc, c :: cs =>
    match digitVal r c with
    | none => none
    | some d => if acc * r + d ≤ B then foldDigits r B (acc * r + d) cs else none

/-- Unbounded digit fold (the mathematical value of a digit string). -/
def digitsValFrom (r : Nat) : Nat → List Char → Option Nat
  | acc, [] => some acc
  | acc, c :: cs =>
    match digitVal r c with
    | none => none
    | some d => digitsValFrom r (acc * r + d) cs

/-- Split an optional leading sign; returns `(isNonNegative, rest)`. -/
def splitSign : List Char → Bool × List Char
  | '+' :: r => (true, r)
  | '-' :: r => (false, r)
  | s => (true, s)

/-- Model of `u64::from_str_radix`; a negative sign succeeds only on a zero
value (`checked_sub` from zero). -/
def from_str_radix_u64 (s : List Char) (r : Nat) : Option Nat :=
  let (pos, ds) := splitSign s
  if ds.isEmpty then none
  else if pos then foldDigits r 18446744073709551615 0 ds
  else foldDigits r 0 0 ds

/-- Model of `i64::from_str_radix`. -/
def from_str_radix_i64 (s : List Char) (r : Nat) : Option Int :=
  let (pos, ds) := splitSign s
  if ds.isEmpty then none
  else if pos then (foldDigits r 9223372036854775807 0 ds).map Int.ofNat
  else (foldDigits r 9223372036854775808 0 ds).map (fun m => -(m : Int))

/-- Count of leading ASCII decimal digits. -/
def takeDigits : List Char → Nat × List Char
  | c :: cs =>
    if c.isDigit then
      let (n, r) := takeDigits cs
      (n + 1, r)
    else (0, c :: cs)
  | [] => (0, [])

/-- Model of the grammar `f64::from_str` accepts, restricted to the characters
a decimal number buffer can contain (digits, dot, exponent, signs; the
`inf`/`nan` spellings contain letters the lexer can never emit). -/
def f64Accepts (s : List Char) : Bool :=
  let s1 := (splitSign s).2
  let (n1, s2) := takeDigits s1
  let (n2, s3) :=
    match s2 with
    | '.' :: r =>
      let (n, r') := takeDigits r
      (n, r')
    | _ => (0, s2)
  if n1 + n2 = 0 then false
  else
    match s3 with
    | [] => true
    | e :: r =>
      if e = 'e' || e = 'E' then
        let r1 := (splitSign r).2
        let (n3, r2) := takeDigits r1
        decide (0 < n3) && r2.isEmpty
      else false

/-- One step of the digit-buffer builder (`append` inside `all_number`);
returns the new state and the character pushed, if any. -/
def appendCh (radix : Nat) (st : Bool) (c : Char) : Except NumberError (Bool × Option Char) :=
  if c = '_' && st then .ok (st, none)
  else if (radix = 2 && ('0' ≤ c && c ≤ '1')) ||
      (radix = 8 && ('0' ≤ c && c ≤ '7')) ||
      (radix = 10 && c.isDigit) ||
      (radix = 16 && (c.isDigit || ('a' ≤ c && c ≤ 'f') || ('A' ≤ c && c ≤ 'F'))) then
    .ok (true, some c)
  else if radix = 10 && (c = '.' || c = 'e' || c = 'E') && st then .ok (false, some c)
  else if radix = 10 && (c = '+' || c = '-') then .ok (false, some c)
  else .error .BadSyntax

/-- The builder loop of `all_number`: folds `appendCh` over the remaining
characters, accumulating the buffer. -/
def numberLexLoop (radix : Nat) : Bool → List Char → List Char → Except NumberError (List Char)
  | _, buf, [] => .ok buf
  | st, buf, c :: cs => do
    let (st', pushed) ← appendCh radix st c
    numberLexLoop radix st' (buf ++ pushed.toList) cs

/-- The sign detection at the head of `all_number` (`-` marks the buffer
negative, `+` is skipped). -/
def signSplitLex : List Char → Bool × List Char
  | '-' :: r => (true, r)
  | '+' :: r => (false, r)
  | s => (false, s)

/-- The radix-prefix detection of `all_number` (`0b`, `0o`, `0x`). -/
def radixSplit : List Char → List Char × Nat
  | '0' :: 'b' :: r => (r, 2)
  | '0' :: 'o' :: r => (r, 8)
  | '0' :: 'x' :: r => (r, 16)
  | s => (s, 10)

/-- Sign and radix detection plus the builder loop of `all_number`; returns
the buffer handed to `from_str_radix` and the radix. -/
def numberLex (s : List Char) : Except NumberError (List Char × Nat) := do
  let (neg, s1) := signSplitLex s
  let (s2, radix) := radixSplit s1
  let buf ← numberLexLoop radix false (if neg then ['-'] else []) s2
  .ok (buf, radix)

/-- The widening chain of `all_number`: `u64`, then `i64`, then (decimal
only, and not ending in a dot) `f64`. -/
def widen (buf : List Char) (radix : Nat) : Except NumberError Number :=
  match from_str_radix_u64 buf radix with
  | some v => .ok (.unsigned v)
  | none =>
    match from_str_radix_i64 buf radix with
    | some v => .ok (.signed v)
    | none =>
      if radix = 10 then
        if buf.getLast? = some '.' then .error .BadSyntax
        else if f64Accepts buf then .ok (.float buf)
        else .error .BadSyntax
      else .error .BadSyntax

/-- `Grammar::all_number`: lex the buffer, then widen. -/
def all_number (s : List Char) : Except NumberError Number := do
  let (buf, radix) ← numberLex s
  widen buf radix

/-! ### Comments, whitespace, esclines -/

/-- `single-line-comment` after `//`. -/
def single_line_comment : Nat → List Char → Nat → Except Error (List Char × Nat)
  | 0, _, _ => .error .UnexpectedEof
  | fuel + 1, s, off =>
    match s with
    | [] => .ok ([], off)
    | c :: rest =>
      if banned c then .error (.BannedChar c off)
      else if newline c then .ok (rest, off + c.utf8Size)
      else single_line_comment fuel rest (off + c.utf8Size)

/-- `multi-line-comment` after `/*`, with a nesting counter. -/
def multi_line_comment : Nat → Nat → List Char → Nat → Except Error (List Char × Nat)
  | 0, _, _, _ => .error .UnexpectedEof
  | fuel + 1, nest, s, off =>
    match s with
    | '*' :: '/' :: rest =>
      if nest = 0 then .ok (rest, off + 2)
      else multi_line_comment fuel (nest - 1) rest (off + 2)
    | '/' :: '*' :: rest => multi_line_comment fuel (nest + 1) rest (off + 2)
    | [] => .error .UnexpectedEof
    | c :: rest =>
      if banned c then .error (.BannedChar c off)
      else multi_line_comment fuel nest rest (off + c.utf8Size)

/-- Leading loop of `escline`: spaces and multi-line comments. -/
def escline_ws : Nat → List Char → Nat → Except Error (List Char × Nat)
  | 0, _, _ => .error .UnexpectedEof
  | fuel + 1, s, off =>
    match s with
    | [] => .ok ([], off)
    | c :: rest =>
      if space c then escline_ws fuel rest (off + c.utf8Size)
      else if c = '/' && rest.head? = some '*' then do
        let (s', o') ← multi_line_comment (rest.tail.length + 1) 0 rest.tail (off + 2)
        escline_ws fuel s' o'
      else .ok (c :: rest, off)

/-- `escline` after `\`. -/
def escline (s : List Char) (off : Nat) : Except Error (List Char × Nat) := do
  let (s1, o1) ← escline_ws (s.length + 1) s off
  match s1 with
  | '/' :: '/' :: rest => single_line_comment (rest.length + 1) rest (o1 + 2)
  | [] => .ok ([], o1)
  | c :: rest =>
    if newline c then .ok (rest, o1 + c.utf8Size) else .error (.ExpectedComment o1)

/-- `line-space*`. -/
def line_space_loop : Nat → List Char → Nat → Except Error (List Char × Nat)
  | 0, _, _ => .error .UnexpectedEof
  | fuel + 1, s, off =>
    match s with
    | [] => .ok ([], off)
    | c :: rest =>
      if c = bsC then do
        let (s', o') ← escline rest (off + 1)
        line_space_loop fuel s' o'
      else if c = '/' then
        match rest with
        | '/' :: r2 => do
          let (s', o') ← single_line_comment (r2.length + 1) r2 (off + 2)
          line_space_loop fuel s' o'
        | '*' :: r2 => do
          let (s', o') ← multi_line_comment (r2.length + 1) 0 r2 (off + 2)
          line_space_loop fuel s' o'
        | _ => .ok (c :: rest, off)
      else if newline c || space c then line_space_loop fuel rest (off + c.utf8Size)
      else .ok (c :: rest, off)

def line_space (s : List Char) (off : Nat) : Except Error (List Char × Nat) :=
  line_space_loop (s.length + 1) s off

/-- `node-space*` / `node-space+` (loop part). -/
def node_space_loop : Nat → List Char → Nat → Except Error (List Char × Nat)
  | 0, _, _ => .error .UnexpectedEof
  | fuel + 1, s, off =>
    match s with
    | [] => .ok ([], off)
    | c :: rest =>
      if c = bsC then do
        let (s', o') ← escline rest (off + 1)
        node_space_loop fuel s' o'
      else if c = '/' && rest.head? = some '*' then do
        let (s', o') ← multi_line_comment (rest.tail.length + 1) 0 rest.tail (off + 2)
        node_space_loop fuel s' o'
      else if space c then node_space_loop fuel rest (off + c.utf8Size)
      else .ok (c :: rest, off)

/-- `Grammar::node_space` with its required-space check. -/
def node_space (s : List Char) (off : Nat) (req : Bool) : Except Error (List Char × Nat) := do
  let (s', o') ← node_space_loop (s.length + 1) s off
  if !req || o' ≠ off then .ok (s', o') else .error (.ExpectedSpace o')

/-- `slashdash`: on a slash-dash token, consumes it plus following line-space. -/
def slash_dash (s : List Char) (off : Nat) : Except Error (Option (List Char × Nat)) :=
  match s with
  | '/' :: '-' :: rest => (line_space rest (off + 2)).map some
  | _ => .ok none

/-- `identifier-string`: the maximal run of identifier characters. -/
def identifier_string : List Char → Nat → List Char × List Char × Nat
  | [], off => ([], [], off)
  | c :: rest, off =>
    if ident c then
      let (name, s', o') := identifier_string rest (off + c.utf8Size)
      (c :: name, s', o')
    else ([], c :: rest, off)

/-! ### String escapes and quoted strings -/

/-- Skip spaces and newlines (the whitespace-escape consumption). -/
def skip_ws_nl : List Char → Nat → List Char × Nat
  | [], off => ([], off)
  | c :: rest, off =>
    if space c || newline c then skip_ws_nl rest (off + c.utf8Size) else (c :: rest, off)

/-- Scan up to six hex digits of a `\u` escape; fails on any other character
than a digit or the closing brace. -/
def uescape_digits : Nat → List Char → Nat → Except Unit (List Char × List Char × Nat)
  | 0, s, off => .ok ([], s, off)
  | k + 1, s, off =>
    match s with
    | [] => .error ()
    | c :: rest =>
      if c.isDigit || ('a' ≤ c && c ≤ 'f') || ('A' ≤ c && c ≤ 'F') then do
        let (ds, s', o') ← uescape_digits k rest (off + 1)
        .ok (c :: ds, s', o')
      else if c = rbraceC then .ok ([], c :: rest, off)
      else .error ()

def hexVal (ds : List Char) : Nat :=
  ds.foldl (fun a c => a * 16 + ((digitVal 16 c).getD 0)) 0

/-- `Grammar::escape`, the part after the backslash. Returns the produced
character, if any (the whitespace escape produces none). -/
def escape (s : List Char) (off : Nat) : Except Error (Option Char × List Char × Nat) :=
  match s with
  | [] => .error .UnexpectedEof
  | c :: rest =>
    if c = 'n' then .ok (some '\n', rest, off + 1)
    else if c = 'r' then .ok (some '\r', rest, off + 1)
    else if c = 't' then .ok (some '\t', rest, off + 1)
    else if c = bsC then .ok (some bsC, rest, off + 1)
    else if c = dquoteC then .ok (some dquoteC, rest, off + 1)
    else if c = 'b' then .ok (some (Char.ofNat 8), rest, off + 1)
    else if c = 'f' then .ok (some (Char.ofNat 12), rest, off + 1)
    else if c = 's' then .ok (some ' ', rest, off + 1)
    else if c = 'u' then
      match rest with
      | b :: rest2 =>
        if b = lbraceC then
          match uescape_digits 6 rest2 (off + 2) with
          | .error _ => .error (.BadEscape off)
          | .ok (ds, s2, o2) =>
            if ds.isEmpty then .error (.BadEscape off)
            else
              match s2 with
              | b2 :: rest3 =>
                if b2 = rbraceC then
                  let n := hexVal ds
                  if n < 0xD800 || (0xE000 ≤ n && n ≤ 0x10FFFF) then
                    .ok (some (Char.ofNat n), rest3, o2 + 1)
                  else .error (.BadEscape off)
                else .error (.BadEscape off)
              | [] => .error (.BadEscape off)
        else .error (.BadEscape (off + 1))
      | [] => .error (.BadEscape (off + 1))
    else if space c || newline c then
      let (s', o') := skip_ws_nl rest (off + c.utf8Size)
      .ok (none, s', o')
    else .error (.BadEscape off)

/-- `Grammar::string_end`: recognize the closing delimiter (one or three
quotes followed by `raw` hashes). Rust slices `tail.as_bytes()[..raw]`, which
requires at least `raw` remaining bytes; the length guard is explicit here. -/
def string_end (s : List Char) (off : Nat) (multi : Bool) (raw : Nat) :
    Option (List Char × Nat) :=
  let t :=
    if multi then
      match s with
      | a :: b :: c :: rest =>
        if a = dquoteC && b = dquoteC && c = dquoteC then some rest else none
      | _ => none
    else
      match s with
      | a :: rest => if a = dquoteC then some rest else none
      | _ => none
  match t with
  | none => none
  | some rest =>
    if raw ≤ rest.length && (rest.take raw).all (· = '#') then
      some (rest.drop raw, off + raw + (if multi then 3 else 1))
    else none

/-- Scan of the final (indentation) line of a multiline string; returns the
suffix at the first escape or at the closing delimiter, whichever came
first (`first` in the source). -/
def indent_scan : Nat → Nat → List Char → Nat → Option (List Char) → Except Error (List Char)
  | 0, _, _, _, _ => .error .UnexpectedEof
  | fuel + 1, raw, s, off, firstR =>
    match s with
    | [] => .error .UnexpectedEof
    | c :: rest =>
      if c = bsC && raw = 0 then do
        let (ch, s', o') ← escape rest (off + 1)
        if ch.isSome then .error (.ExpectedSpace off)
        else indent_scan fuel raw s' o' (some (firstR.getD (c :: rest)))
      else if c = dquoteC && (string_end (c :: rest) off true raw).isSome then
        .ok (firstR.getD (c :: rest))
      else if space c then indent_scan fuel raw rest (off + c.utf8Size) firstR
      else .error (.ExpectedSpace off)

/-- First loop of per-line dedenting: is the line entirely space up to its
newline? -/
def line_all_space : Nat → List Char → Nat → Except Error Bool
  | 0, _, _ => .error .UnexpectedEof
  | fuel + 1, s, off =>
    match s with
    | [] => .error .UnexpectedEof
    | c :: rest =>
      if newline c then .ok true
      else if space c then line_all_space fuel rest (off + c.utf8Size)
      else .ok false

/-- Content loop of per-line dedenting: collect characters (processing
escapes when not raw) up to the line's newline. -/
def line_content : Nat → Nat → List Char → Nat → List Char → Except Error (List Char)
  | 0, _, _, _, _ => .error .UnexpectedEof
  | fuel + 1, raw, s, off, text =>
    match s with
    | [] => .error .UnexpectedEof
    | c :: rest =>
      if c = bsC && raw = 0 then do
        let (ch, s', o') ← escape rest (off + 1)
        line_content fuel raw s' o' (text ++ ch.toList)
      else if newline c then .ok text
      else line_content fuel raw rest (off + c.utf8Size) (text ++ [c])

def utf8Len (l : List Char) : Nat := l.foldl (fun a c => a + c.utf8Size) 0

/-- Dedent one content line against the indent prefix. -/
def dedent_line (raw : Nat) (indent : List Char) (ls : List Char) (lo : Nat) :
    Except Error (List Char) := do
  let allSpace ← line_all_space (ls.length + 1) ls lo
  if allSpace then .ok []
  else if indent.isPrefixOf ls then
    line_content (ls.length + 1) raw (ls.drop indent.length) (lo + utf8Len indent) []
  else .error (.BadIndent lo)

/-- `Grammar::dedent_multiline`: pop the final line, derive the indent from
it, dedent every other line and join with newlines. -/
def dedent_multiline (closeOff : Nat) (lines : List (List Char × Nat)) (raw : Nat) :
    Except Error (List Char) :=
  match lines.getLast? with
  | none => .error (.ExpectedNewline closeOff)
  | some (lastS, _lastOff) => do
    let firstR ← indent_scan (lastS.length + 1) raw lastS
      (match lines.getLast? with | some p => p.2 | none => closeOff) none
    let indent := lastS.take (lastS.length - firstR.length)
    let contribs ← (lines.dropLast).mapM (fun p => dedent_line raw indent p.1 p.2)
    .ok (List.intercalate ['\n'] contribs)

/-- Result assembly of the single-line loop: borrow the source slice when no
accumulator was started, otherwise own the accumulated text. -/
def cowOf (text : Option (List Char)) (slice : List Char) : Cow :=
  match text with
  | none => .borrowed slice
  | some t => .owned t

/-- Single-line branch of `Grammar::quoted_string`; `s0` is the suffix at the
content start, `text` the owned accumulator (`None` while borrowable). -/
def quoted_single : Nat → List Char → Nat → List Char → Nat → Option (List Char) →
    Except Error (Cow × List Char × Nat)
  | 0, _, _, _, _, _ => .error .UnexpectedEof
  | fuel + 1, s0, raw, s, off, text =>
    match s with
    | [] => .error .UnexpectedEof
    | c :: rest =>
      if c = bsC && raw = 0 then do
        let t0 := text.getD (s0.take (s0.length - (c :: rest).length))
        let (ch, s', o') ← escape rest (off + 1)
        quoted_single fuel s0 raw s' o' (some (t0 ++ ch.toList))
      else if c = dquoteC then
        match string_end (c :: rest) off false raw with
        | some (s', o') =>
          .ok (cowOf text (s0.take (s0.length - (c :: rest).length)), s', o')
        | none => quoted_single fuel s0 raw rest (off + 1) (text.map (· ++ [dquoteC]))
      else if newline c then .error (.UnexpectedNewline off)
      else if banned c then .error (.BannedChar c off)
      else quoted_single fuel s0 raw rest (off + c.utf8Size) (text.map (· ++ [c]))

/-- Multi-line branch of `Grammar::quoted_string`: records the position after
each newline, then dedents once the closing delimiter is found. -/
def quoted_multi : Nat → Nat → List Char → Nat → List (List Char × Nat) →
    Except Error (Cow × List Char × Nat)
  | 0, _, _, _, _ => .error .UnexpectedEof
  | fuel + 1, raw, s, off, lines =>
    match s with
    | [] => .error .UnexpectedEof
    | c :: rest =>
      if c = bsC && raw = 0 then do
        let (_, s', o') ← escape rest (off + 1)
        quoted_multi fuel raw s' o' lines
      else if c = dquoteC && rest.head? = some dquoteC && rest.tail.head? = some dquoteC then
        match string_end (c :: rest) off true raw with
        | some (s', o') => do
          let str ← dedent_multiline off lines raw
          .ok (.owned str, s', o')
        | none => quoted_multi fuel raw (rest.drop 2) (off + 3) lines
      else if newline c then
        if c = '\r' && rest.head? = some '\n' then
          quoted_multi fuel raw rest.tail (off + 2) (lines ++ [(rest.tail, off + 2)])
        else
          quoted_multi fuel raw rest (off + c.utf8Size) (lines ++ [(rest, off + c.utf8Size)])
      else if banned c then .error (.BannedChar c off)
      else if lines.isEmpty then .error (.ExpectedNewline off)
      else quoted_multi fuel raw rest (off + c.utf8Size) lines

/-- `Grammar::quoted_string`, entered just after the first quote. -/
def quoted_string (s : List Char) (off : Nat) (raw : Nat) :
    Except Error (Cow × List Char × Nat) :=
  match s with
  | a :: b :: rest =>
    if a = dquoteC && b = dquoteC then quoted_multi (s.length + 1) raw rest (off + 2) []
    else quoted_single (s.length + 1) s raw s off none
  | _ => quoted_single (s.length + 1) s raw s off none

/-! ### Values, identifiers, type hints -/

/-- `enum SemiValue`. -/
inductive SemiValue where
  | strS (s : Cow)
  | numberS (t : List Char)
  | keywordS (t : List Char)
deriving Repr, DecidableEq

/-- Count a run of `#` characters. -/
def hash_run : List Char → Nat → Nat × List Char × Nat
  | '#' :: rest, off =>
    let (n, s', o') := hash_run rest (off + 1)
    (n + 1, s', o')
  | s, off => (0, s, off)

/-- `Grammar::semi_value`. -/
def semi_value (s : List Char) (off : Nat) : Except Error (SemiValue × List Char × Nat) :=
  match s with
  | [] => .error (.ExpectedCloseParen off)
  | c :: rest =>
    if c = dquoteC then do
      let (cow, s', o') ← quoted_string rest (off + 1) 0
      .ok (.strS cow, s', o')
    else if c = '#' then
      if (match rest with | d :: _ => ident d | [] => false) then
        let (name, s', o') := identifier_string rest (off + 1)
        .ok (.keywordS name, s', o')
      else
        let (extra, s2, o2) := hash_run rest (off + 1)
        match s2 with
        | q :: r2 =>
          if q = dquoteC then do
            let (cow, s', o') ← quoted_string r2 (o2 + 1) (1 + extra)
            .ok (.strS cow, s', o')
          else .error (.ExpectedString off)
        | [] => .error (.ExpectedString off)
    else if ident c then
      let (text, s', o') := identifier_string (c :: rest) off
      if number_like text then .ok (.numberS text, s', o')
      else if text = "inf".data || text = "-inf".data || text = "nan".data ||
          text = "true".data || text = "false".data || text = "null".data then
        .error (.BadIdentifier off)
      else .ok (.strS (.borrowed text), s', o')
    else .error (.ExpectedCloseParen off)

/-- `Grammar::string`. -/
def string_rule (s : List Char) (off : Nat) : Except Error (Cow × List Char × Nat) := do
  let (v, s', o') ← semi_value s off
  match v with
  | .strS t => .ok (t, s', o')
  | _ => .error (.ExpectedString off)

/-- `Grammar::value`. Keyword floats carry their token as the float payload. -/
def value_rule (s : List Char) (off : Nat) : Except Error (Value × List Char × Nat) := do
  let (v, s', o') ← semi_value s off
  match v with
  | .strS t => .ok (.str t, s', o')
  | .numberS t =>
    match all_number t with
    | .ok n => .ok (.num n, s', o')
    | .error _ => .error (.InvalidNumber off)
  | .keywordS t =>
    if t = "null".data then .ok (.null, s', o')
    else if t = "true".data then .ok (.bool true, s', o')
    else if t = "false".data then .ok (.bool false, s', o')
    else if t = "inf".data then .ok (.num (.float "inf".data), s', o')
    else if t = "-inf".data then .ok (.num (.float "-inf".data), s', o')
    else if t = "nan".data then .ok (.num (.float "nan".data), s', o')
    else .error (.BadKeyword off)

/-- `Grammar::type_hint`. -/
def type_hint (s : List Char) (off : Nat) :
    Except Error (Option Cow × List Char × Nat) :=
  match s with
  | '(' :: rest => do
    let (s1, o1) ← node_space rest (off + 1) false
    let (text, s2, o2) ← string_rule s1 o1
    let (s3, o3) ← node_space s2 o2 false
    match s3 with
    | ')' :: r => .ok (some text, r, o3 + 1)
    | _ => .error (.ExpectedCloseParen o3)
  | _ => .ok (none, s, off)

/-! ### Node-level productions and the stream parser -/

/-- `Grammar::start_node`. -/
def start_node (s : List Char) (off : Nat) (root : Bool) :
    Except Error (InnerEvent × List Char × Nat) := do
  let (s1, o1) ← line_space s off
  if root && s1.isEmpty then .ok (.done, s1, o1)
  else if !root && s1.head? = some rbraceC then .ok (.endI, s1.tail, o1 + 1)
  else do
    let sdOpt ← slash_dash s1 o1
    let sd := sdOpt.isSome
    let (s2, o2) := sdOpt.getD (s1, o1)
    let (ty, s3, o3) ← type_hint s2 o2
    let (s4, o4) ← node_space s3 o3 false
    let (name, s5, o5) ← string_rule s4 o4
    .ok (.nodeI sd ty name, s5, o5)

/-- `Grammar::begin_document`: consume one leading BOM, then `start_node`. -/
def begin_document (s : List Char) (off : Nat) :
    Except Error (InnerEvent × List Char × Nat) :=
  match s with
  | c :: rest =>
    if c.toNat = 0xFEFF then start_node rest (off + c.utf8Size) true
    else start_node (c :: rest) off true
  | [] => start_node [] off true

/-- Tail of `Grammar::node_item` after the terminator checks: the required
space, slashdash, child block, and prop/value parsing. A property whose `=`
does not follow rolls the consumed node-space back. -/
def node_item_tail (s : List Char) (off first : Nat) (props : Bool) :
    Except Error (InnerEvent × List Char × Nat) := do
  if off = first then .error (.ExpectedSpace off)
  else do
    let sdOpt ← slash_dash s off
    let sd := sdOpt.isSome
    let (s2, o2) := sdOpt.getD (s, off)
    if s2.head? = some lbraceC then .ok (.beginI sd, s2.tail, o2 + 1)
    else if props then do
      let (tyOpt, s3, o3) ← type_hint s2 o2
      match tyOpt with
      | some ty => do
        let (s4, o4) ← node_space s3 o3 false
        let (v, s5, o5) ← value_rule s4 o4
        .ok (.propValue sd (some ty) none v, s5, o5)
      | none => do
        let (v, s4, o4) ← value_rule s3 o3
        match v with
        | .str key => do
          let (s5, o5) ← node_space s4 o4 false
          if s5.head? = some '=' then do
            let (s6, o6) ← node_space s5.tail (o5 + 1) false
            let (ty2, s7, o7) ← type_hint s6 o6
            let (s8, o8) ← node_space s7 o7 false
            let (real, s9, o9) ← value_rule s8 o8
            .ok (.propValue sd ty2 (some key) real, s9, o9)
          else .ok (.propValue sd none none (.str key), s4, o4)
        | _ => .ok (.propValue sd none none v, s4, o4)
    else .error (.ExpectedValue o2)

/-- `Grammar::node_item`. -/
def node_item (s : List Char) (off : Nat) (root props : Bool) :
    Except Error (InnerEvent × List Char × Nat) := do
  let first := off
  let (s1, o1) ← node_space s off false
  if root && s1.isEmpty then .ok (.done, s1, o1)
  else
    match s1 with
    | [] => node_item_tail s1 o1 first props
    | c :: rest =>
      if c = rbraceC && !root then .ok (.endI, rest, o1 + 1)
      else if c = ';' then start_node rest (o1 + 1) root
      else if c = '/' && rest.head? = some '/' then do
        let (s2, o2) ← single_line_comment (rest.tail.length + 1) rest.tail (o1 + 2)
        start_node s2 o2 root
      else if newline c then start_node rest (o1 + c.utf8Size) root
      else node_item_tail s1 o1 first props

/-- `enum ParserState`. -/
inductive PMode where
  | beginDocument
  | nextNode
  | nodeProps
  | nodeChildren
  | doneM
deriving Repr, DecidableEq

/-- The fields of `struct Parser`. -/
structure PState where
  rest : List Char
  off : Nat
  mode : PMode
  beginValid : Bool
  nest : Nat
deriving Repr, DecidableEq

/-- `Parser::next_event`: one low-level event plus the state transition. -/
def nextEventF (p : PState) : Except Error (InnerEvent × PState) := do
  let (ev, s', o') ←
    match p.mode with
    | .beginDocument => begin_document p.rest p.off
    | .nextNode => start_node p.rest p.off (p.nest = 0)
    | .nodeProps => node_item p.rest p.off (p.nest = 0) true
    | .nodeChildren => node_item p.rest p.off (p.nest = 0) false
    | .doneM => .ok (.done, p.rest, p.off)
  let (mode, nest) :=
    match ev with
    | .nodeI _ _ _ => (PMode.nodeProps, p.nest)
    | .propValue _ _ _ _ => (PMode.nodeProps, p.nest)
    | .beginI _ => (PMode.nextNode, p.nest + 1)
    | .endI => (PMode.nodeChildren, p.nest - 1)
    | .done => (PMode.doneM, p.nest)
  .ok (ev, ⟨s', o', mode, p.beginValid, nest⟩)

/-- The swallow loop for a slashdashed node: pull events until the next
sibling node, the node's closing `End`, or `Done`; returns the event to
re-process, if any. -/
def sd_node_skip : Nat → PState → Nat → Option (Except Error (Option InnerEvent × PState))
  | 0, _, _ => none
  | fuel + 1, p, depth =>
    match nextEventF p with
    | .error e => some (.error e)
    | .ok (ev, p') =>
      match ev with
      | .nodeI false ty name =>
        if depth = 0 then some (.ok (some (.nodeI false ty name), p'))
        else sd_node_skip fuel p' depth
      | .beginI _ => sd_node_skip fuel p' (depth + 1)
      | .endI =>
        if depth = 0 then some (.ok (some .endI, p'))
        else if depth - 1 = 0 then some (.ok (none, p'))
        else sd_node_skip fuel p' (depth - 1)
      | .done => some (.ok (some .done, p'))
      | _ => sd_node_skip fuel p' depth

/-- The swallow loop for a slashdashed `Begin`: drop everything up to and
including the matching `End`. -/
def sd_begin_skip : Nat → PState → Nat → Option (Except Error PState)
  | 0, _, _ => none
  | fuel + 1, p, depth =>
    match nextEventF p with
    | .error e => some (.error e)
    | .ok (ev, p') =>
      match ev with
      | .beginI _ => sd_begin_skip fuel p' (depth + 1)
      | .endI => if depth = 0 then some (.ok p') else sd_begin_skip fuel p' (depth - 1)
      | _ => sd_begin_skip fuel p' depth

/-- `Parser::next_real`: slashdash filtering over the low-level events.
Returns `none` only on fuel exhaustion, which the callers' fuel rules out. -/
def next_real : Nat → PState → Option InnerEvent →
    Option (Except Error (Option Event × PState))
  | 0, _, _ => none
  | fuel + 1, p, nextPop =>
    let startOff := p.off
    let step : Except Error (InnerEvent × PState) :=
      match nextPop with
      | some e => .ok (e, p)
      | none => nextEventF p
    match step with
    | .error e => some (.error e)
    | .ok (ev, p') =>
      match ev with
      | .nodeI true _ _ =>
        match sd_node_skip fuel p' 0 with
        | none => none
        | some (.error e) => some (.error e)
        | some (.ok (pop', p2)) => next_real fuel p2 pop'
      | .beginI true =>
        match sd_begin_skip fuel p' 0 with
        | none => none
        | some (.error e) => some (.error e)
        | some (.ok p2) => next_real fuel p2 none
      | .nodeI false ty name =>
        some (.ok (some (.nodeE ty name), ⟨p'.rest, p'.off, p'.mode, true, p'.nest⟩))
      | .propValue true _ _ _ => next_real fuel p' none
      | .propValue false ty key v => some (.ok (some (.entryE key ty v), p'))
      | .beginI false =>
        if p'.beginValid then some (.ok (some .beginE, p'))
        else some (.error (.MultipleChildren startOff))
      | .endI => some (.ok (some .endE, ⟨p'.rest, p'.off, p'.mode, false, p'.nest⟩))
      | .done => some (.ok (none, p'))

/-- Collect the public event stream (the `Iterator` impl plus `collect`):
stop at end of stream, or surface the first error. -/
def collect_events : Nat → PState → Option (Except Error (List Event))
  | 0, _ => none
  | fuel + 1, p =>
    match next_real (p.rest.length + 2) p none with
    | none => none
    | some (.error e) => some (.error e)
    | some (.ok (none, _)) => some (.ok [])
    | some (.ok (some ev, p')) =>
      match collect_events fuel p' with
      | none => none
      | some (.error e) => some (.error e)
      | some (.ok evs) => some (.ok (ev :: evs))

/-- `Parser::new`. -/
def initP (s : List Char) : PState := ⟨s, 0, .beginDocument, false, 0⟩

/-- The full public event stream of an input. -/
def parse_events (s : List Char) : Option (Except Error (List Event)) :=
  collect_events (s.length + 2) (initP s)

/-! ### Identifier emission (`IdentDisplay` in `lib.rs`) and the text writer -/

/-- The explicit character list `IdentDisplay` quotes on (`lib.rs`). -/
def identDisplayBad : List Char :=
  ['\u0000', '\u0001', '\u0002', '\u0003', '\u0004', '\u0005', '\u0006', '\u0007',
    '\u0008', '\u000E', '\u000F', '\u0010', '\u0011', '\u0012', '\u0013', '\u0014',
    '\u0015', '\u0016', '\u0017', '\u0018', '\u0019', '\u001A', '\u001B', '\u001C',
    '\u001D', '\u001E', '\u001F', '\u007F', '\u200E', '\u200F', '\u202A', '\u202B',
    '\u202C', '\u202D', '\u202E', '\u2066', '\u2067', '\u2068', '\u2069', '\uFEFF',
    bsC, '/', '(', ')', lbraceC, rbraceC, ';', '[', ']', dquoteC, '#', '=',
    '\u0009', ' ', '\u00A0', '\u1680', '\u2000', '\u2001', '\u2002', '\u2003',
    '\u2004', '\u2005', '\u2006', '\u2007', '\u2008', '\u2009', '\u200A', '\u202F',
    '\u205F', '\u3000', '\u000A', '\u000B', '\u000C', '\u000D', '\u0085', '\u2028',
    '\u2029']

/-- The number-likeness test of `IdentDisplay`: strips one `+`, then one `-`,
then one `.`, and asks for an ASCII digit. -/
def ident_number_like (t : List Char) : Bool :=
  let t1 := match t with | '+' :: r => r | _ => t
  let t2 := match t1 with | '-' :: r => r | _ => t1
  let t3 := match t2 with | '.' :: r => r | _ => t2
  match t3 with
  | c :: _ => c.isDigit
  | [] => false

/-- Model of `char::escape_debug` (standard library): named escapes for the
common controls, quote and backslash; other ASCII controls as a hex escape.
Unicode printability of non-ASCII characters is approximated as printable;
no theorem below evaluates the quoted branch on such characters. -/
def escapeDebugChar (c : Char) : List Char :=
  if c = '\n' then [bsC, 'n']
  else if c = '\r' then [bsC, 'r']
  else if c = '\t' then [bsC, 't']
  else if c = bsC then [bsC, bsC]
  else if c = dquoteC then [bsC, dquoteC]
  else if c = squoteC then [bsC, squoteC]
  else if c.toNat < 0x20 || c.toNat = 0x7F then
    [bsC, 'u', lbraceC] ++ Nat.toDigits 16 c.toNat ++ [rbraceC]
  else [c]

/-- The per-character emission inside `IdentDisplay`'s quoted branch. -/
def identEscapeChar (c : Char) : List Char :=
  if c.toNat = 8 then [bsC, 'b']
  else if c.toNat = 12 then [bsC, 'f']
  else if c = squoteC then [squoteC]
  else escapeDebugChar c

/-- `IdentDisplay`: bare when non-empty, not number-like and free of the
listed characters; otherwise quoted with escapes. -/
def identDisplay (t : List Char) : List Char :=
  if t.isEmpty || ident_number_like t || t.any (fun c => identDisplayBad.contains c) then
    [dquoteC] ++ t.flatMap identEscapeChar ++ [dquoteC]
  else t

/-- Float display: the keyword tokens re-emit as keywords; the `Debug`
formatting of finite `f64` values is standard library behaviour that is not
modelled (the token is reproduced; no theorem's input reaches this case). -/
def floatDisplayModel (t : List Char) : List Char :=
  if t = "inf".data then "#inf".data
  else if t = "-inf".data then "#-inf".data
  else if t = "nan".data then "#nan".data
  else t

/-- `Display for Number`. -/
def numberDisplay : Number → List Char
  | .unsigned v => (toString v).data
  | .signed v => (toString v).data
  | .float t => floatDisplayModel t

/-- `Display for Value`. -/
def valueDisplay : Value → List Char
  | .str s => identDisplay s.str
  | .num n => numberDisplay n
  | .bool true => "#true".data
  | .bool false => "#false".data
  | .null => "#null".data

def indentChars (depth : Nat) : List Char :=
  List.flatten (List.replicate depth "    ".data)

/-- `write_stream` (fold over the events with depth and a first-node flag). -/
def write_stream_go : List Event → Nat → Bool → List Char
  | [], _, _ => []
  | ev :: evs, depth, nonStart =>
    match ev with
    | .nodeE ty name =>
      (if nonStart then ['\n'] else []) ++ indentChars depth ++
        (match ty with
          | some t => ['('] ++ identDisplay t.str ++ [')']
          | none => []) ++
        identDisplay name.str ++ write_stream_go evs depth true
    | .entryE key ty v =>
      [' '] ++
        (match key with
          | some k => identDisplay k.str ++ ['=']
          | none => []) ++
        (match ty with
          | some t => ['('] ++ identDisplay t.str ++ [')']
          | none => []) ++
        valueDisplay v ++ write_stream_go evs depth nonStart
    | .beginE => [' ', lbraceC] ++ write_stream_go evs (depth + 1) nonStart
    | .endE =>
      ['\n'] ++ indentChars (depth - 1) ++ [rbraceC] ++ write_stream_go evs (depth - 1) nonStart

def write_stream (evs : List Event) : List Char := write_stream_go evs 0 false

/-! ### The DOM (`dom.rs`)

At the DOM layer `Cow` equality is content equality, so textual fields are
kept as plain character lists. -/

/-- `Value` at the DOM layer. -/
inductive DValue where
  | str (s : List Char)
  | num (n : Number)
  | bool (b : Bool)
  | null
deriving Repr, DecidableEq

/-- `struct Entry`. -/
structure Entry where
  key : Option (List Char)
  ty : Option (List Char)
  value : DValue
deriving Repr, DecidableEq

/-- `struct Node` (a `Document` is its list of nodes). -/
inductive Node where
  | mk (ty : Option (List Char)) (name : List Char) (entries : List Entry)
    (children : Option (List Node))
deriving Repr

def Node.ty : Node → Option (List Char)
  | .mk t _ _ _ => t

def Node.name : Node → List Char
  | .mk _ n _ _ => n

def Node.entries : Node → List Entry
  | .mk _ _ es _ => es

def Node.children : Node → Option (List Node)
  | .mk _ _ _ ch => ch

def dval : Value → DValue
  | .str s => .str s.str
  | .num n => .num n
  | .bool b => .bool b
  | .null => .null

def cowOpt (o : Option Cow) : Option (List Char) := o.map Cow.str

def addEntry : Node → Entry → Node
  | .mk t n es ch, e => .mk t n (es ++ [e]) ch

def setChildren : Node → List Node → Node
  | .mk t n es _, d => .mk t n es (some d)

/-- `impl FromIterator<Event> for Document`. The stack's head is its top;
`none` models the panics (`unwrap` on an empty stack or an absent last node,
and the final balance `assert`). -/
def from_events_go : List Event → List (List Node) → Option (List Node)
  | [], stack =>
    match stack with
    | [d] => some d
    | _ => none
  | ev :: evs, stack =>
    match stack with
    | [] => none
    | top :: below =>
      match ev with
      | .nodeE ty name =>
        from_events_go evs ((top ++ [Node.mk (cowOpt ty) name.str [] none]) :: below)
      | .entryE key ty v =>
        match top.getLast? with
        | none => none
        | some last =>
          from_events_go evs
            ((top.dropLast ++ [addEntry last ⟨cowOpt key, cowOpt ty, dval v⟩]) :: below)
      | .beginE => from_events_go evs ([] :: top :: below)
      | .endE =>
        match below with
        | [] => none
        | b :: below2 =>
          match b.getLast? with
          | none => none
          | some last => from_events_go evs ((b.dropLast ++ [setChildren last top]) :: below2)

def from_events (evs : List Event) : Option (List Node) := from_events_go evs [[]]

/-- `Document::parse`: the collected stream folded into a document; the outer
`Option` is fuel adequacy, the inner one the fold's panic-freedom. -/
def parse_doc (s : List Char) : Option (Except Error (Option (List Node))) :=
  (parse_events s).map (fun r => r.map from_events)

/-! ### Normalization (`Node::normalize`) -/

/-- The reverse pass of the duplicate-property removal: walking the reversed
entry list with the set of keys already seen, marking shadowed entries. The
source marks by overwriting the key with a sentinel string pointer and later
removes entries whose key is pointer-identical to the sentinel; the mark is
modelled as a flag. -/
def markRev : List Entry → List (List Char) → List (Entry × Bool)
  | [], _ => []
  | e :: rest, seen =>
    match e.key with
    | some k =>
      if k ∈ seen then (e, true) :: markRev rest seen
      else (e, false) :: markRev rest (k :: seen)
    | none => (e, false) :: markRev rest seen

/-- The seen-set accumulated by the marking pass after walking a list of
entries. -/
def seenAfter : List Entry → List (List Char) → List (List Char)
  | [], seen => seen
  | e :: rest, seen =>
    match e.key with
    | some k => if k ∈ seen then seenAfter rest seen else seenAfter rest (k :: seen)
    | none => seenAfter rest seen

/-- The two-pass duplicate removal of `Node::normalize`. -/
def normEntries (es : List Entry) : List Entry :=
  (((markRev es.reverse []).reverse).filter (fun x => !x.2)).map Prod.fst

/-- `Node::normalize`: drop empty child documents, recurse into children,
remove shadowed properties. -/
def normalizeNode : Node → Node
  | .mk ty name es ch =>
    let ch' :=
      match ch with
      | none => none
      | some d =>
        if d.isEmpty then none
        else some (d.attach.map (fun x => normalizeNode x.1))
    .mk ty name (normEntries es) ch'
termination_by n => sizeOf n
decreasing_by
  simp only [Option.some.sizeOf_spec, Node.mk.sizeOf_spec]
  have := List.sizeOf_lt_of_mem x.2
  omega

/-- Specification-side duplicate removal: keep an entry iff it is positional
or the rightmost occurrence of its key. -/
def keepLast : List Entry → List Entry
  | [] => []
  | e :: rest =>
    match e.key with
    | some k =>
      if rest.any (fun e2 => e2.key = some k) then keepLast rest else e :: keepLast rest
    | none => e :: keepLast rest

/-! ### Numeric conversions (`impl TryFrom<Number>` in `number.rs`) -/

def try_from_u8 : Number → Except NumberError Nat
  | .unsigned v => if v ≤ 255 then .ok v else .error .OutOfRange
  | _ => .error .OutOfRange

def try_from_u16 : Number → Except NumberError Nat
  | .unsigned v => if v ≤ 65535 then .ok v else .error .OutOfRange
  | _ => .error .OutOfRange

def try_from_u32 : Number → Except NumberError Nat
  | .unsigned v => if v ≤ 4294967295 then .ok v else .error .OutOfRange
  | _ => .error .OutOfRange

def try_from_u64 : Number → Except NumberError Nat
  | .unsigned v => .ok v
  | _ => .error .OutOfRange

def try_from_u128 : Number → Except NumberError Nat
  | .unsigned v => .ok v
  | _ => .error .OutOfRange

def try_from_i8 : Number → Except NumberError Int
  | .signed v => if -128 ≤ v ∧ v ≤ 127 then .ok v else .error .OutOfRange
  | _ => .error .OutOfRange

def try_from_i16 : Number → Except NumberError Int
  | .signed v => if -32768 ≤ v ∧ v ≤ 32767 then .ok v else .error .OutOfRange
  | _ => .error .OutOfRange

def try_from_i32 : Number → Except NumberError Int
  | .signed v => if -2147483648 ≤ v ∧ v ≤ 2147483647 then .ok v else .error .OutOfRange
  | _ => .error .OutOfRange

def try_from_i64 : Number → Except NumberError Int
  | .signed v => .ok v
  | _ => .error .OutOfRange

def try_from_i128 : Number → Except NumberError Int
  | .signed v => .ok v
  | _ => .error .OutOfRange

def try_from_f64 : Number → Except NumberError (List Char)
  | .float t => .ok t
  | _ => .error .OutOfRange

/-- The ten fixed-width integer targets. -/
inductive IntTarget where
  | u8 | u16 | u32 | u64 | u128 | i8 | i16 | i32 | i64 | i128
deriving Repr, DecidableEq

/-- Dispatch to the macro-generated impl of a target, results widened
to `Int`. -/
def try_from_int : IntTarget → Number → Except NumberError Int
  | .u8, n => (try_from_u8 n).map Int.ofNat
  | .u16, n => (try_from_u16 n).map Int.ofNat
  | .u32, n => (try_from_u32 n).map Int.ofNat
  | .u64, n => (try_from_u64 n).map Int.ofNat
  | .u128, n => (try_from_u128 n).map Int.ofNat
  | .i8, n => try_from_i8 n
  | .i16, n => try_from_i16 n
  | .i32, n => try_from_i32 n
  | .i64, n => try_from_i64 n
  | .i128, n => try_from_i128 n

/-- Whether a target type is signed. -/
def targetSigned : IntTarget → Bool
  | .i8 | .i16 | .i32 | .i64 | .i128 => true
  | _ => false

/-- Lower bound of a target type. -/
def targetLo : IntTarget → Int
  | .i8 => -128
  | .i16 => -32768
  | .i32 => -2147483648
  | .i64 => -9223372036854775808
  | .i128 => -170141183460469231731687303715884105728
  | _ => 0

/-- Upper bound of a target type. -/
def targetHi : IntTarget → Int
  | .u8 => 255
  | .u16 => 65535
  | .u32 => 4294967295
  | .u64 => 18446744073709551615
  | .u128 => 340282366920938463463374607431768211455
  | .i8 => 127
  | .i16 => 32767
  | .i32 => 2147483647
  | .i64 => 9223372036854775807
  | .i128 => 170141183460469231731687303715884105727

/-- The representation invariant of `Number`: the unsigned variant stores a
`u64`, the signed variant an `i64`. -/
def numberInv : Number → Prop
  | .unsigned v => v ≤ 18446744073709551615
  | .signed v => -9223372036854775808 ≤ v ∧ v ≤ 9223372036854775807
  | .float _ => True

/-! ### Event-sequence well-formedness (for the DOM fold) -/

/-- The claim's well-formedness of an event sequence: no prefix with more
`End` than `Begin`, no `Entry` at a level without a node, balance at the
end. The boolean stack records, per open level, whether a node has been
pushed there. -/
def claim_wf_go : List Event → List Bool → Bool
  | [], st => decide (st.length = 1)
  | ev :: evs, st =>
    match st with
    | [] => false
    | top :: below =>
      match ev with
      | .nodeE _ _ => claim_wf_go evs (true :: below)
      | .entryE _ _ _ => top && claim_wf_go evs (top :: below)
      | .beginE => claim_wf_go evs (false :: top :: below)
      | .endE =>
        match below with
        | [] => false
        | b :: below2 => claim_wf_go evs (b :: below2)

def claim_wf (evs : List Event) : Bool := claim_wf_go evs [false]

/-- Amended well-formedness: additionally, every `End` must close a `Begin`
that was issued at a level which already had a node (otherwise the fold has
no node to attach the children to). -/
def amended_wf_go : List Event → List Bool → Bool
  | [], st => decide (st.length = 1)
  | ev :: evs, st =>
    match st with
    | [] => false
    | top :: below =>
      match ev with
      | .nodeE _ _ => amended_wf_go evs (true :: below)
      | .entryE _ _ _ => top && amended_wf_go evs (top :: below)
      | .beginE => amended_wf_go evs (false :: top :: below)
      | .endE =>
        match below with
        | [] => false
        | b :: below2 => b && amended_wf_go evs (b :: below2)

def amended_wf (evs : List Event) : Bool := amended_wf_go evs [false]

/-- The float-or-fail tail of the widening chain, reached when neither
integer parse succeeds: decimal buffers not ending in a dot that match the
f64 grammar become floats, everything else is `BadSyntax`. -/
def c3fallback (buf : List Char) (radix : Nat) : Except NumberError Number :=
  if radix = 10 then
    if buf.getLast? = some '.' then .error .BadSyntax
    else if f64Accepts buf then .ok (.float buf)
    else .error .BadSyntax
  else .error .BadSyntax

/-! ## Theorems -/

/-- Claim C1: the write/reparse roundtrip is claimed to succeed for every
parseable input, but it fails on the input consisting of the quoted string
`"true"` used as a node name: parsing succeeds and yields the node named
`true`, the text writer re-emits that name as the bare identifier `true`,
and reparsing that output fails with `BadIdentifier` at byte 0 because
`true` is a reserved bare word. -/
theorem c1_roundtrip_failure :
    parse_events "\"true\"".data =
      some (.ok [Event.nodeE none (.borrowed "true".data)]) ∧
    write_stream [Event.nodeE none (.borrowed "true".data)] = "true".data ∧
    parse_events "true".data = some (.error (.BadIdentifier 0)) ∧
    parse_doc "\"true\"".data =
      some (.ok (some [Node.mk none "true".data [] none])) :=
  ⟨rfl, rfl, rfl, rfl⟩

/-- Claim C2: the identifier emitter prints the reserved bare word `true`
bare, although `true` is non-empty, consists of identifier characters only
and is not number-like; the claimed reserved-word check does not exist in
the code, so the output can be a bare reserved word. -/
theorem c2_reserved_word_emitted_bare :
    identDisplay "true".data = "true".data ∧
    ("true".data).all ident = true ∧
    number_like "true".data = false ∧
    ("true".data).isEmpty = false :=
  ⟨rfl, by decide, rfl, rfl⟩

/-- Claim C5: the source `a` followed by a slashdashed child block around
`x` and a real child block around `y` parses (the slashdashed block is
dropped, `y` is the real child), but prefixing its only node with a
slashdash does not yield the document with that node removed: it fails with
`MultipleChildren`, because the swallow loop treats the slashdashed block's
`End` as the node's own closing `End`. -/
theorem c5_slashdash_node_failure :
    parse_events "a /- \x7bx\x7d \x7by\x7d".data =
      some (.ok [Event.nodeE none (.borrowed "a".data), Event.beginE,
        Event.nodeE none (.borrowed "y".data), Event.endE]) ∧
    parse_events "/- a /- \x7bx\x7d \x7by\x7d".data =
      some (.error (.MultipleChildren 11)) :=
  ⟨rfl, rfl⟩

/-- Claim C7 counterexample: parsing the input consisting of a single
closing brace fails with `ExpectedCloseParen` at byte 0, not with
`UnexpectedCloseBracket` as claimed. -/
theorem c7_counterexample :
    parse_events "\x7d".data = some (.error (.ExpectedCloseParen 0)) ∧
    ∀ p, parse_events "\x7d".data ≠ some (.error (.UnexpectedCloseBracket p)) := by
  refine ⟨rfl, ?_⟩
  intro p h
  rw [show parse_events "\x7d".data = some (.error (.ExpectedCloseParen 0)) from rfl] at h
  simp at h

/-- Claim C7 amended: a `\x7d` outside any child block still causes a parse
failure carrying its byte position, but the error kind differs:
`ExpectedCloseParen` where a node name or value could start, and
`ExpectedValue` in a children-only position. -/
theorem c7_amended :
    parse_events "\x7d".data = some (.error (.ExpectedCloseParen 0)) ∧
    parse_events "a \x7d".data = some (.error (.ExpectedCloseParen 2)) ∧
    parse_events "a \x7bb\x7d \x7d".data = some (.error (.ExpectedValue 6)) :=
  ⟨rfl, rfl, rfl⟩

/-- Claim C9 counterexample: a U+FEFF at a structural position (after a node
name and a space) makes parsing fail with `ExpectedCloseParen` at its byte
position 2, not with `BannedChar` as claimed. -/
theorem c9_counterexample :
    parse_events "a \uFEFF".data = some (.error (.ExpectedCloseParen 2)) ∧
    ∀ c p, parse_events "a \uFEFF".data ≠ some (.error (.BannedChar c p)) := by
  refine ⟨rfl, ?_⟩
  intro c p h
  rw [show parse_events "a \uFEFF".data = some (.error (.ExpectedCloseParen 2)) from rfl] at h
  simp at h

/-- Claim C9 amended: a single leading U+FEFF is consumed silently (the
input `U+FEFF a` parses to the same events as `a`); a U+FEFF inside a quoted
string or comment fails with `BannedChar` at its byte position; a U+FEFF at
a structural position still fails, but with a different error. -/
theorem c9_amended :
    parse_events "\uFEFFa".data = some (.ok [Event.nodeE none (.borrowed "a".data)]) ∧
    parse_events "a".data = some (.ok [Event.nodeE none (.borrowed "a".data)]) ∧
    parse_events "a \"b\uFEFFc\"".data = some (.error (.BannedChar '\uFEFF' 4)) ∧
    parse_events "a //x\uFEFF".data = some (.error (.BannedChar '\uFEFF' 5)) ∧
    parse_events "a \uFEFF".data = some (.error (.ExpectedCloseParen 2)) :=
  ⟨rfl, rfl, rfl, rfl, rfl⟩

/-- Claim C8 counterexample: converting the signed number 5 to `u8` fails
with `OutOfRange` even though 5 is exactly representable in `u8`; the
conversion only ever matches the stored variant. -/
theorem c8_counterexample :
    try_from_int .u8 (Number.signed 5) = .error .OutOfRange ∧
    targetLo .u8 ≤ 5 ∧ (5 : Int) ≤ targetHi .u8 :=
  ⟨rfl, by decide, by decide⟩

/-- Claim C10 counterexample: the sequence `[Begin, End]` satisfies all three
well-formedness conditions of the claim (no prefix with more `End` than
`Begin`, no `Entry` without a node at its level, balanced at the end), yet
the DOM fold panics: the `End` has no node one level up to attach to. -/
theorem c10_counterexample :
    from_events [Event.beginE, Event.endE] = none ∧
    claim_wf [Event.beginE, Event.endE] = true :=
  ⟨rfl, rfl⟩

/-- The DOM fold succeeds on a stack iff the amended machine accepts on the
corresponding stack of has-node flags. -/
theorem from_events_go_isSome (evs : List Event) :
    ∀ stack bstack,
      List.Forall₂ (fun (d : List Node) (b : Bool) => b = !d.isEmpty) stack bstack →
      (from_events_go evs stack).isSome = amended_wf_go evs bstack := by
  induction evs with
  | nil =>
    intro stack bstack h
    have hlen := h.length_eq
    match stack, bstack with
    | [], [] => simp [from_events_go, amended_wf_go]
    | [d], [b] => simp [from_events_go, amended_wf_go]
    | d1 :: d2 :: ds, b1 :: b2 :: bs => simp [from_events_go, amended_wf_go]
    | [], _ :: _ => simp at hlen
    | _ :: _, [] => simp at hlen
    | [d], _ :: _ :: _ => simp at hlen
    | _ :: _ :: _, [_] => simp at hlen
  | cons ev evs ih =>
    intro stack bstack h
    cases h with
    | nil => cases ev <;> simp [from_events_go, amended_wf_go]
    | @cons d b ds bs hdb htl =>
      cases ev with
      | nodeE ty name =>
        simp only [from_events_go, amended_wf_go]
        exact ih _ (true :: bs) (.cons (by simp) htl)
      | entryE k t v =>
        rcases List.eq_nil_or_concat d with rfl | ⟨init, lastE, rfl⟩
        · have hb : b = false := by simp [hdb]
          subst hb
          simp [from_events_go, amended_wf_go]
        · have hb : b = true := by simp [hdb]
          subst hb
          simp only [from_events_go, amended_wf_go, List.concat_eq_append,
            List.getLast?_concat, List.dropLast_concat]
          rw [ih ((init ++ [addEntry lastE ⟨cowOpt k, cowOpt t, dval v⟩]) :: ds)
              (true :: bs) (.cons (by simp) htl)]
          simp
      | beginE =>
        simp only [from_events_go, amended_wf_go]
        exact ih ([] :: d :: ds) (false :: b :: bs) (.cons (by simp) (.cons hdb htl))
      | endE =>
        cases htl with
        | nil => simp [from_events_go, amended_wf_go]
        | @cons d2 b2 ds2 bs2 hdb2 htl2 =>
          rcases List.eq_nil_or_concat d2 with rfl | ⟨init, lastE, rfl⟩
          · have hb : b2 = false := by simp [hdb2]
            subst hb
            simp [from_events_go, amended_wf_go]
          · have hb : b2 = true := by simp [hdb2]
            subst hb
            simp only [from_events_go, amended_wf_go, List.concat_eq_append,
              List.getLast?_concat, List.dropLast_concat]
            rw [ih ((init ++ [setChildren lastE d]) :: ds2) (true :: bs2)
                (.cons (by simp) htl2)]
            simp

/-- Claim C10 (amended): the DOM fold returns a document exactly when the
event sequence is accepted by the well-formedness machine that also demands
each `Begin` to occur at a level that already has a node. -/
theorem c10_wf_iff (evs : List Event) : (from_events evs).isSome = amended_wf evs :=
  from_events_go_isSome evs [[]] [false] (.cons (by simp) .nil)

/-- Claim C8 (amended): under the representation invariant, each fixed-width
conversion succeeds exactly on its own variant family within the target's
bounds, and fails with `OutOfRange` otherwise; the `f64` target succeeds
exactly on the float variant. -/
theorem c8_variant_exact (t : IntTarget) (n : Number) (hv : numberInv n) :
    (try_from_int t n =
      match n with
      | .unsigned v =>
        if targetSigned t = false ∧ (v : Int) ≤ targetHi t then .ok (v : Int)
        else .error .OutOfRange
      | .signed v =>
        if targetSigned t = true ∧ targetLo t ≤ v ∧ v ≤ targetHi t then .ok v
        else .error .OutOfRange
      | .float _ => .error .OutOfRange) ∧
    (try_from_f64 n =
      match n with
      | .float s => .ok s
      | _ => .error .OutOfRange) := by
  constructor
  · cases t <;> cases n <;>
      simp only [numberInv, try_from_int, try_from_u8, try_from_u16, try_from_u32,
        try_from_u64, try_from_u128, try_from_i8, try_from_i16, try_from_i32, try_from_i64,
        try_from_i128, targetSigned, targetLo, targetHi, Except.map] at hv ⊢ <;>
      split_ifs <;> simp_all <;> omega
  · cases n <;> rfl

/-- Witness for the amended C8 theorem at a concrete in-range input. -/
theorem c8_variant_exact_witness :
    numberInv (Number.unsigned 300) ∧
    try_from_int .u8 (Number.unsigned 300) = .error .OutOfRange := by
  refine ⟨by simp only [numberInv]; omega, ?_⟩
  have h := (c8_variant_exact .u8 (Number.unsigned 300) (by simp only [numberInv]; omega)).1
  simpa using h

/-- The unbounded digit fold only grows: its result dominates the
accumulator (for a positive radix). -/
theorem digitsValFrom_le (r : Nat) (hr : 1 ≤ r) :
    ∀ ds a v, digitsValFrom r a ds = some v → a ≤ v := by
  intro ds
  induction ds with
  | nil =>
    intro a v h
    simp [digitsValFrom] at h
    omega
  | cons c cs ih =>
    intro a v h
    simp only [digitsValFrom] at h
    cases hd : digitVal r c with
    | none => rw [hd] at h; simp at h
    | some d =>
      rw [hd] at h
      have h2 := ih (a * r + d) v h
      have h3 : a * 1 ≤ a * r := Nat.mul_le_mul_left a hr
      omega

/-- The checked fold equals the unbounded fold filtered by the bound:
overflow is permanent because the value only grows. -/
theorem foldDigits_eq (r B : Nat) (hr : 1 ≤ r) :
    ∀ ds a, a ≤ B →
      foldDigits r B a ds =
        (digitsValFrom r a ds).bind (fun v => if v ≤ B then some v else none) := by
  intro ds
  induction ds with
  | nil =>
    intro a ha
    simp [foldDigits, digitsValFrom, ha]
  | cons c cs ih =>
    intro a ha
    simp only [foldDigits, digitsValFrom]
    cases hd : digitVal r c with
    | none => simp
    | some d =>
      simp only []
      by_cases hb : a * r + d ≤ B
      · rw [if_pos hb]
        exact ih (a * r + d) hb
      · rw [if_neg hb]
        cases hv : digitsValFrom r (a * r + d) cs with
        | none => simp
        | some v =>
          have := digitsValFrom_le r hr cs (a * r + d) v hv
          simp only [hv, Option.some_bind]
          rw [if_neg (by omega)]

/-- A successful digit fold means every character was a valid digit. -/
theorem digitsValFrom_isSome (r : Nat) :
    ∀ ds a m, digitsValFrom r a ds = some m → ∀ c ∈ ds, (digitVal r c).isSome := by
  intro ds
  induction ds with
  | nil =>
    intro a m _ c hc
    simp at hc
  | cons x xs ih =>
    intro a m h c hc
    simp only [digitsValFrom] at h
    cases hd : digitVal r x with
    | none => rw [hd] at h; simp at h
    | some d =>
      rw [hd] at h
      rcases List.mem_cons.mp hc with rfl | hc2
      · simp [hd]
      · exact ih _ _ h c hc2

/-- In radix 10, a non-digit character is not a valid digit. -/
theorem digitVal10_none (c : Char) (hd : c.isDigit = false) : digitVal 10 c = none := by
  unfold digitVal
  simp only [hd, Bool.false_eq_true, if_false]
  by_cases h1 : (97 ≤ c.toNat && c.toNat ≤ 122) = true
  · have : ¬(c.toNat - 87 < 10) := by
      simp only [Bool.and_eq_true, decide_eq_true_eq] at h1
      omega
    simp [h1, this]
  · by_cases h2 : (65 ≤ c.toNat && c.toNat ≤ 90) = true
    · have : ¬(c.toNat - 55 < 10) := by
        simp only [Bool.and_eq_true, decide_eq_true_eq] at h2
        omega
      simp [h1, h2, this]
    · simp [h1, h2]

/-- `takeDigits` consumes an all-digit list entirely. -/
theorem takeDigits_all (ds : List Char) (h : ∀ c ∈ ds, c.isDigit = true) :
    takeDigits ds = (ds.length, []) := by
  induction ds with
  | nil => rfl
  | cons c cs ih =>
    have hc := h c (List.mem_cons_self c cs)
    simp [takeDigits, hc, ih (fun x hx => h x (List.mem_cons_of_mem c hx))]

/-- The shapes `splitSign` can produce. -/
theorem splitSign_shape (s : List Char) (pos : Bool) (ds : List Char)
    (h : splitSign s = (pos, ds)) : s = ds ∨ s = '+' :: ds ∨ s = '-' :: ds := by
  unfold splitSign at h
  split at h
  · cases h
    right; left; rfl
  · cases h
    right; right; rfl
  · cases h
    left; rfl

/-- A sign-plus-decimal-digits buffer is accepted by the float grammar and
does not end in a dot. -/
theorem int_shaped_f64 (buf : List Char) (pos : Bool) (ds : List Char) (m : Nat)
    (hsp : splitSign buf = (pos, ds)) (hne : ds ≠ [])
    (hv : digitsValFrom 10 0 ds = some m) :
    f64Accepts buf = true ∧ buf.getLast? ≠ some '.' := by
  have hdig : ∀ c ∈ ds, c.isDigit = true := by
    intro c hc
    have h1 := digitsValFrom_isSome 10 ds 0 m hv c hc
    by_contra hcon
    rw [digitVal10_none c (by simpa using hcon)] at h1
    simp at h1
  constructor
  · unfold f64Accepts
    rw [hsp]
    simp only []
    rw [takeDigits_all ds hdig]
    have hlen : ds.length ≠ 0 := by
      intro hc
      exact hne (List.eq_nil_of_length_eq_zero hc)
    cases hds2 : ds.length with
    | zero => exact absurd hds2 hlen
    | succ k => simp
  · rcases List.eq_nil_or_concat ds with rfl | ⟨init, lc, hds⟩
    · exact absurd rfl hne
    · have hds' : ds = init ++ [lc] := by rw [hds, List.concat_eq_append]
      have hlc : lc.isDigit = true := hdig lc (by rw [hds']; simp)
      have hbl : buf.getLast? = some lc := by
        rcases splitSign_shape buf pos ds hsp with hb | hb | hb
        · rw [hb, hds', List.getLast?_concat]
        · rw [hb, hds', ← List.cons_append, List.getLast?_concat]
        · rw [hb, hds', ← List.cons_append, List.getLast?_concat]
      rw [hbl]
      intro hcon
      have : lc = '.' := by simpa using hcon
      subst this
      exact absurd hlc (by decide)

/-- Inversion of `numberLex`. -/
theorem numberLex_inv (s buf : List Char) (radix : Nat)
    (h : numberLex s = .ok (buf, radix)) :
    ∃ neg s1 s2, signSplitLex s = (neg, s1) ∧ radixSplit s1 = (s2, radix) ∧
      numberLexLoop radix false (if neg then ['-'] else []) s2 = .ok buf := by
  unfold numberLex at h
  rcases hs : signSplitLex s with ⟨neg, s1⟩
  rw [hs] at h
  dsimp only at h
  rcases hr : radixSplit s1 with ⟨s2, rad⟩
  rw [hr] at h
  dsimp only at h
  cases hx : numberLexLoop rad false (if neg then ['-'] else []) s2 with
  | error e =>
    rw [hx] at h
    simp [Bind.bind, Except.bind] at h
  | ok b =>
    rw [hx] at h
    simp only [Bind.bind, Except.bind, Except.ok.injEq, Prod.mk.injEq] at h
    obtain ⟨hb, hrad⟩ := h
    subst hb hrad
    exact ⟨neg, s1, s2, rfl, hr, hx⟩

/-- The radix detected by `radixSplit` is one of the four supported ones. -/
theorem radixSplit_mem (s : List Char) :
    (radixSplit s).2 = 2 ∨ (radixSplit s).2 = 8 ∨ (radixSplit s).2 = 10 ∨
      (radixSplit s).2 = 16 := by
  unfold radixSplit
  split <;> simp

/-- `widen` produces a float only in the decimal branch. -/
theorem widen_float_radix (buf : List Char) (radix : Nat) (t : List Char)
    (h : widen buf radix = .ok (.float t)) : radix = 10 := by
  unfold widen at h
  split at h
  · simp at h
  · split at h
    · simp at h
    · by_cases h10 : radix = 10
      · exact h10
      · rw [if_neg h10] at h
        simp at h

/-- With a successful lex, `all_number` is the widening chain on the buffer. -/
theorem all_number_eq (s buf : List Char) (radix : Nat)
    (h : numberLex s = .ok (buf, radix)) : all_number s = widen buf radix := by
  unfold all_number
  rw [h]
  rfl

/-- `u64` parse of a positive buffer with digit value `m`. -/
theorem u64_parts_pos (buf ds : List Char) (r m : Nat) (hr : 1 ≤ r)
    (hsp : splitSign buf = (true, ds)) (hds : ds.isEmpty = false)
    (hv : digitsValFrom r 0 ds = some m) :
    from_str_radix_u64 buf r = if m ≤ 18446744073709551615 then some m else none := by
  unfold from_str_radix_u64
  rw [hsp]
  simp only [hds, Bool.false_eq_true, if_false, if_true]
  rw [foldDigits_eq r 18446744073709551615 hr ds 0 (Nat.zero_le _), hv]
  rfl

/-- `u64` parse of a negative buffer with digit value `m`. -/
theorem u64_parts_neg (buf ds : List Char) (r m : Nat) (hr : 1 ≤ r)
    (hsp : splitSign buf = (false, ds)) (hds : ds.isEmpty = false)
    (hv : digitsValFrom r 0 ds = some m) :
    from_str_radix_u64 buf r = if m = 0 then some 0 else none := by
  unfold from_str_radix_u64
  rw [hsp]
  simp only [hds, Bool.false_eq_true, if_false]
  rw [foldDigits_eq r 0 hr ds 0 (Nat.le_refl 0), hv]
  by_cases hm : m = 0
  · subst hm
    rfl
  · show (if m ≤ 0 then some m else none) = _
    rw [if_neg (by omega), if_neg hm]

/-- `i64` parse of a positive buffer with digit value `m`. -/
theorem i64_parts_pos (buf ds : List Char) (r m : Nat) (hr : 1 ≤ r)
    (hsp : splitSign buf = (true, ds)) (hds : ds.isEmpty = false)
    (hv : digitsValFrom r 0 ds = some m) :
    from_str_radix_i64 buf r =
      if m ≤ 9223372036854775807 then some (Int.ofNat m) else none := by
  unfold from_str_radix_i64
  rw [hsp]
  simp only [hds, Bool.false_eq_true, if_false, if_true]
  rw [foldDigits_eq r 9223372036854775807 hr ds 0 (Nat.zero_le _), hv]
  by_cases hm : m ≤ 9223372036854775807
  · show ((if m ≤ 9223372036854775807 then some m else none).map Int.ofNat) = _
    rw [if_pos hm, if_pos hm]
    rfl
  · show ((if m ≤ 9223372036854775807 then some m else none).map Int.ofNat) = _
    rw [if_neg hm, if_neg hm]
    rfl

/-- `i64` parse of a negative buffer with digit value `m`. -/
theorem i64_parts_neg (buf ds : List Char) (r m : Nat) (hr : 1 ≤ r)
    (hsp : splitSign buf = (false, ds)) (hds : ds.isEmpty = false)
    (hv : digitsValFrom r 0 ds = some m) :
    from_str_radix_i64 buf r =
      if m ≤ 9223372036854775808 then some (-(m : Int)) else none := by
  unfold from_str_radix_i64
  rw [hsp]
  simp only [hds, Bool.false_eq_true, if_false]
  rw [foldDigits_eq r 9223372036854775808 hr ds 0 (Nat.zero_le _), hv]
  by_cases hm : m ≤ 9223372036854775808
  · show ((if m ≤ 9223372036854775808 then some m else none).map fun k => -(k : Int)) = _
    rw [if_pos hm, if_pos hm]
    rfl
  · show ((if m ≤ 9223372036854775808 then some m else none).map fun k => -(k : Int)) = _
    rw [if_neg hm, if_neg hm]
    rfl

/-- Both integer parses fail when the digit fold fails or the digits are
empty. -/
theorem parts_none (buf ds : List Char) (pos : Bool) (r : Nat) (hr : 1 ≤ r)
    (hsp : splitSign buf = (pos, ds))
    (hcase : ds.isEmpty = true ∨ digitsValFrom r 0 ds = none) :
    from_str_radix_u64 buf r = none ∧ from_str_radix_i64 buf r = none := by
  unfold from_str_radix_u64 from_str_radix_i64
  rw [hsp]
  rcases hcase with hds | hv
  · simp [hds]
  · by_cases hds : ds.isEmpty
    · simp [hds]
    · simp only [hds, Bool.false_eq_true, if_false]
      cases pos
      · rw [foldDigits_eq r 0 hr ds 0 (Nat.le_refl 0), hv,
          foldDigits_eq r 9223372036854775808 hr ds 0 (Nat.zero_le _), hv]
        exact ⟨rfl, rfl⟩
      · rw [foldDigits_eq r 18446744073709551615 hr ds 0 (Nat.zero_le _), hv,
          foldDigits_eq r 9223372036854775807 hr ds 0 (Nat.zero_le _), hv]
        exact ⟨rfl, rfl⟩

/-- Characterization of the widening chain in terms of the magnitude of the
digit string. -/
theorem widen_eq (buf ds : List Char) (radix : Nat) (pos : Bool) (hr1 : 1 ≤ radix)
    (hsp : splitSign buf = (pos, ds)) :
    widen buf radix =
      if ds.isEmpty then c3fallback buf radix
      else
        match digitsValFrom radix 0 ds with
        | none => c3fallback buf radix
        | some m =>
          if pos then
            if m ≤ 18446744073709551615 then .ok (.unsigned m)
            else c3fallback buf radix
          else
            if m = 0 then .ok (.unsigned 0)
            else if m ≤ 9223372036854775808 then .ok (.signed (-(m : Int)))
            else c3fallback buf radix := by
  by_cases hds : ds.isEmpty
  · obtain ⟨hu, hi⟩ := parts_none buf ds pos radix hr1 hsp (Or.inl hds)
    unfold widen
    rw [hu, hi, if_pos hds]
    rfl
  · have hds' : ds.isEmpty = false := by simpa using hds
    rw [if_neg hds]
    cases hv : digitsValFrom radix 0 ds with
    | none =>
      obtain ⟨hu, hi⟩ := parts_none buf ds pos radix hr1 hsp (Or.inr hv)
      unfold widen
      rw [hu, hi]
      rfl
    | some m =>
      cases pos with
      | true =>
        unfold widen
        rw [u64_parts_pos buf ds radix m hr1 hsp hds' hv,
          i64_parts_pos buf ds radix m hr1 hsp hds' hv]
        by_cases hm : m ≤ 18446744073709551615
        · simp [hm]
        · have hm2 : ¬ m ≤ 9223372036854775807 := by omega
          simp [hm, hm2, c3fallback]
      | false =>
        unfold widen
        rw [u64_parts_neg buf ds radix m hr1 hsp hds' hv,
          i64_parts_neg buf ds radix m hr1 hsp hds' hv]
        by_cases hm0 : m = 0
        · subst hm0
          simp
        · by_cases hm : m ≤ 9223372036854775808
          · simp [hm0, hm]
          · simp [hm0, hm, c3fallback]

/-- Claim C3: for every buffer accepted by the number lexer, the parsed
Number is chosen by widening. Splitting the lexed buffer into sign and
digits, with `m` the value of the digit string in the detected radix: a
nonnegative buffer with `m` at most `2^64 - 1` is the unsigned variant; a
negative buffer is unsigned zero when `m = 0` and the signed variant when
`m` is at most `2^63`; in every remaining case the decimal-only
float-or-`BadSyntax` tail `c3fallback` decides, so binary, octal and
hexadecimal input never produces a float (second conjunct), and the radix
is always one of 2, 8, 10, 16 (first conjunct). -/
theorem c3_widening (s buf ds : List Char) (radix : Nat) (pos : Bool)
    (h : numberLex s = .ok (buf, radix)) (hsp : splitSign buf = (pos, ds)) :
    (radix = 2 ∨ radix = 8 ∨ radix = 10 ∨ radix = 16) ∧
    (∀ t, all_number s = .ok (.float t) → radix = 10) ∧
    all_number s =
      (if ds.isEmpty then c3fallback buf radix
       else
         match digitsValFrom radix 0 ds with
         | none => c3fallback buf radix
         | some m =>
           if pos then
             if m ≤ 18446744073709551615 then .ok (.unsigned m)
             else c3fallback buf radix
           else
             if m = 0 then .ok (.unsigned 0)
             else if m ≤ 9223372036854775808 then .ok (.signed (-(m : Int)))
             else c3fallback buf radix) := by
  obtain ⟨neg, s1, s2, hs, hr, hx⟩ := numberLex_inv s buf radix h
  have hrad : radix = 2 ∨ radix = 8 ∨ radix = 10 ∨ radix = 16 := by
    have hm := radixSplit_mem s1
    rw [hr] at hm
    exact hm
  have hr1 : 1 ≤ radix := by rcases hrad with h1 | h1 | h1 | h1 <;> omega
  have heq := all_number_eq s buf radix h
  refine ⟨hrad, ?_, ?_⟩
  · intro t hft
    rw [heq] at hft
    exact widen_float_radix buf radix t hft
  · rw [heq]
    exact widen_eq buf ds radix pos hr1 hsp

/-- A concrete run of the widening theorem: lexing the token -5 yields the
buffer with sign, and the parsed number is the signed variant. -/
theorem c3_widening_witness :
    numberLex ['-', '5'] = Except.ok (['-', '5'], 10) ∧
      splitSign ['-', '5'] = (false, ['5']) ∧
      all_number ['-', '5'] = Except.ok (Number.signed (-5)) := by
  refine ⟨rfl, rfl, ?_⟩
  have h := (c3_widening ['-', '5'] ['-', '5'] ['5'] 10 false rfl rfl).2.2
  rw [h]
  rfl

/-- The marking pass distributes over append, threading the seen set. -/
theorem markRev_append (l1 l2 : List Entry) (seen : List (List Char)) :
    markRev (l1 ++ l2) seen = markRev l1 seen ++ markRev l2 (seenAfter l1 seen) := by
  induction l1 generalizing seen with
  | nil => rfl
  | cons e rest ih =>
    simp only [List.cons_append, markRev, seenAfter]
    cases hek : e.key with
    | none => simp [ih]
    | some k =>
      by_cases hk : k ∈ seen
      · simp [hk, ih]
      · simp [hk, ih]

/-- Membership in the accumulated seen set. -/
theorem mem_seenAfter (k : List Char) (l : List Entry) (seen : List (List Char)) :
    k ∈ seenAfter l seen ↔ k ∈ seen ∨ ∃ e ∈ l, e.key = some k := by
  induction l generalizing seen with
  | nil => simp [seenAfter]
  | cons e rest ih =>
    simp only [seenAfter]
    cases hek : e.key with
    | none =>
      rw [ih]
      simp [hek]
    | some k2 =>
      dsimp only
      by_cases hk : k2 ∈ seen
      · rw [if_pos hk, ih]
        simp only [List.mem_cons, hek, Option.some.injEq]
        constructor
        · rintro (h | h)
          · exact Or.inl h
          · exact Or.inr (by
              obtain ⟨e2, he2, hke⟩ := h
              exact ⟨e2, Or.inr he2, hke⟩)
        · rintro (h | ⟨e2, he2 | he2, hke⟩)
          · exact Or.inl h
          · subst he2
            rw [hek] at hke
            cases hke
            exact Or.inl hk
          · exact Or.inr ⟨e2, he2, hke⟩
      · rw [if_neg hk, ih]
        simp only [List.mem_cons, hek, Option.some.injEq]
        constructor
        · rintro (⟨h | h⟩ | h)
          · exact Or.inr ⟨e, Or.inl rfl, by rw [hek, h]⟩
          · exact Or.inl h
          · obtain ⟨e2, he2, hke⟩ := h
            exact Or.inr ⟨e2, Or.inr he2, hke⟩
        · rintro (h | ⟨e2, he2 | he2, hke⟩)
          · exact Or.inl (Or.inr h)
          · subst he2
            rw [hek] at hke
            cases hke
            exact Or.inl (Or.inl rfl)
          · exact Or.inr ⟨e2, he2, hke⟩

/-- Unfolding `keepLast` at a positional entry. -/
theorem keepLast_cons_none (e : Entry) (rest : List Entry) (hek : e.key = none) :
    keepLast (e :: rest) = e :: keepLast rest := by
  simp only [keepLast, hek]

/-- Unfolding `keepLast` at a shadowed property. -/
theorem keepLast_cons_some_true (e : Entry) (rest : List Entry) (k : List Char)
    (hek : e.key = some k) (ha : (rest.any fun e2 => e2.key = some k) = true) :
    keepLast (e :: rest) = keepLast rest := by
  simp only [keepLast, hek, ha, if_true]

/-- Unfolding `keepLast` at a rightmost property occurrence. -/
theorem keepLast_cons_some_false (e : Entry) (rest : List Entry) (k : List Char)
    (hek : e.key = some k) (ha : (rest.any fun e2 => e2.key = some k) = false) :
    keepLast (e :: rest) = e :: keepLast rest := by
  simp only [keepLast, hek, ha, Bool.false_eq_true, if_false]

/-- The two-pass sentinel-marking dedup equals the one-pass rightmost-wins
filter. -/
theorem normEntries_eq_keepLast (es : List Entry) : normEntries es = keepLast es := by
  induction es with
  | nil => rfl
  | cons e rest ih =>
    have hsf : markRev [e] (seenAfter rest.reverse []) = [(e, false)] →
        normEntries (e :: rest) = e :: normEntries rest := by
      intro hb
      unfold normEntries
      rw [List.reverse_cons, markRev_append, hb, List.reverse_append]
      simp [List.filter_cons]
    have hst : markRev [e] (seenAfter rest.reverse []) = [(e, true)] →
        normEntries (e :: rest) = normEntries rest := by
      intro hb
      unfold normEntries
      rw [List.reverse_cons, markRev_append, hb, List.reverse_append]
      simp [List.filter_cons]
    cases hek : e.key with
    | none =>
      rw [hsf (by simp [markRev, hek]), ih, keepLast_cons_none e rest hek]
    | some k =>
      by_cases hk : k ∈ seenAfter rest.reverse []
      · have ha : (rest.any fun e2 => e2.key = some k) = true := by
          rw [List.any_eq_true]
          have hm := (mem_seenAfter k rest.reverse []).mp hk
          simp only [List.not_mem_nil, false_or, List.mem_reverse] at hm
          obtain ⟨e2, he2, hke⟩ := hm
          exact ⟨e2, he2, by simp [hke]⟩
        rw [hst (by simp [markRev, hek, hk]), ih,
          keepLast_cons_some_true e rest k hek ha]
      · have ha : (rest.any fun e2 => e2.key = some k) = false := by
          rw [← Bool.not_eq_true, List.any_eq_true]
          intro hcon
          apply hk
          rw [mem_seenAfter]
          obtain ⟨e2, he2, hke⟩ := hcon
          exact Or.inr ⟨e2, List.mem_reverse.mpr he2, by simpa using hke⟩
        rw [hsf (by simp [markRev, hek, hk]), ih,
          keepLast_cons_some_false e rest k hek ha]

/-- A list with a matching element has a nonempty filter. -/
theorem filter_ne_nil_of_any (l : List Entry) (p : Entry → Bool)
    (h : l.any p = true) : l.filter p ≠ [] := by
  rw [List.any_eq_true] at h
  obtain ⟨x, hx, hpx⟩ := h
  intro hcon
  have hmem : x ∈ l.filter p := List.mem_filter.mpr ⟨hx, hpx⟩
  rw [hcon] at hmem
  exact List.not_mem_nil x hmem

/-- A list with no matching element has an empty filter. -/
theorem filter_eq_nil_of_not_any (l : List Entry) (p : Entry → Bool)
    (h : ¬ l.any p = true) : l.filter p = [] := by
  cases hf : l.filter p with
  | nil => rfl
  | cons x t =>
    have hx : x ∈ l.filter p := by rw [hf]; exact List.mem_cons_self x t
    have hm := List.mem_filter.mp hx
    exact absurd (List.any_eq_true.mpr ⟨x, hm.1, hm.2⟩) h

/-- `getLast?` skips a head in front of a nonempty tail. -/
theorem getLast?_cons_of_ne_nil (a : Entry) (l : List Entry) (h : l ≠ []) :
    (a :: l).getLast? = l.getLast? := by
  cases l with
  | nil => exact absurd rfl h
  | cons b t => rfl

/-- Rightmost-wins: filtering the deduplicated entries by a key yields
exactly the last matching source entry. -/
theorem keepLast_filter_key (es : List Entry) (k : List Char) :
    (keepLast es).filter (fun e => e.key = some k) =
      ((es.filter (fun e => e.key = some k)).getLast?).toList := by
  induction es with
  | nil => rfl
  | cons e rest ih =>
    cases hek : e.key with
    | none =>
      rw [keepLast_cons_none e rest hek]
      have hpe : (decide (e.key = some k)) = false := by simp [hek]
      rw [List.filter_cons, List.filter_cons]
      simp only [hpe, Bool.false_eq_true, if_false]
      exact ih
    | some k2 =>
      by_cases ha : (rest.any fun e2 => e2.key = some k2) = true
      · rw [keepLast_cons_some_true e rest k2 hek ha]
        by_cases hkk : k2 = k
        · subst hkk
          have hpe : (decide (e.key = some k2)) = true := by simp [hek]
          rw [List.filter_cons]
          simp only [hpe, if_true]
          rw [getLast?_cons_of_ne_nil e _ (filter_ne_nil_of_any rest _ ha)]
          exact ih
        · have hpe : (decide (e.key = some k)) = false := by simp [hek, hkk]
          rw [List.filter_cons]
          simp only [hpe, Bool.false_eq_true, if_false]
          exact ih
      · rw [keepLast_cons_some_false e rest k2 hek (by simpa using ha)]
        by_cases hkk : k2 = k
        · subst hkk
          have hpe : (decide (e.key = some k2)) = true := by simp [hek]
          rw [List.filter_cons, List.filter_cons]
          simp only [hpe, if_true]
          have hnil : rest.filter (fun e2 => e2.key = some k2) = [] :=
            filter_eq_nil_of_not_any rest _ ha
          rw [ih, hnil]
          rfl
        · have hpe : (decide (e.key = some k)) = false := by simp [hek, hkk]
          rw [List.filter_cons, List.filter_cons]
          simp only [hpe, Bool.false_eq_true, if_false]
          exact ih

/-- Positional entries survive deduplication unchanged. -/
theorem keepLast_filter_none (es : List Entry) :
    (keepLast es).filter (fun e => e.key = none) =
      es.filter (fun e => e.key = none) := by
  induction es with
  | nil => rfl
  | cons e rest ih =>
    cases hek : e.key with
    | none =>
      rw [keepLast_cons_none e rest hek, List.filter_cons, List.filter_cons]
      have hpe : (decide (e.key = none)) = true := by simp [hek]
      simp only [hpe, if_true]
      rw [ih]
    | some k2 =>
      have hpe : (decide (e.key = none)) = false := by simp [hek]
      by_cases ha : (rest.any fun e2 => e2.key = some k2) = true
      · rw [keepLast_cons_some_true e rest k2 hek ha, List.filter_cons]
        simp only [hpe, Bool.false_eq_true, if_false]
        exact ih
      · rw [keepLast_cons_some_false e rest k2 hek (by simpa using ha),
          List.filter_cons, List.filter_cons]
        simp only [hpe, Bool.false_eq_true, if_false]
        exact ih

/-- Deduplicated entries are a sublist of the originals, so relative order
is preserved. -/
theorem keepLast_sublist (es : List Entry) : (keepLast es).Sublist es := by
  induction es with
  | nil => exact List.Sublist.refl []
  | cons e rest ih =>
    cases hek : e.key with
    | none =>
      rw [keepLast_cons_none e rest hek]
      exact List.Sublist.cons₂ e ih
    | some k2 =>
      by_cases ha : (rest.any fun e2 => e2.key = some k2) = true
      · rw [keepLast_cons_some_true e rest k2 hek ha]
        exact List.Sublist.cons e ih
      · rw [keepLast_cons_some_false e rest k2 hek (by simpa using ha)]
        exact List.Sublist.cons₂ e ih

/-- Closed-form equation for `normalizeNode`. -/
theorem normalizeNode_mk (ty : Option (List Char)) (name : List Char)
    (es : List Entry) (ch : Option (List Node)) :
    normalizeNode (.mk ty name es ch) =
      .mk ty name (normEntries es)
        (match ch with
         | none => none
         | some d => if d.isEmpty then none else some (d.map normalizeNode)) := by
  rw [normalizeNode.eq_def]
  cases ch with
  | none => rfl
  | some d =>
    by_cases hd : d.isEmpty
    · simp [hd]
    · simp only [hd, Bool.false_eq_true, if_false]
      congr 2
      simp

/-- Claim C4: after `normalize`, a node keeps its type and name; its entry
list is the rightmost-wins deduplication of the original, a sublist of the
original (so positional entries and relative order are untouched): filtering
by any property key yields exactly the last matching original entry, and
filtering the positional entries yields them unchanged; an empty children
document becomes absent and a nonempty one is normalized recursively. -/
theorem c4_normalize (n : Node) :
    (normalizeNode n).ty = n.ty ∧
    (normalizeNode n).name = n.name ∧
    (normalizeNode n).entries = keepLast n.entries ∧
    (∀ k, (normalizeNode n).entries.filter (fun e => e.key = some k) =
      ((n.entries.filter (fun e => e.key = some k)).getLast?).toList) ∧
    ((normalizeNode n).entries.filter (fun e => e.key = none) =
      n.entries.filter (fun e => e.key = none)) ∧
    ((normalizeNode n).entries).Sublist n.entries ∧
    (normalizeNode n).children =
      (match n.children with
       | none => none
       | some d => if d.isEmpty then none else some (d.map normalizeNode)) := by
  cases n with
  | mk ty name es ch =>
    rw [normalizeNode_mk]
    simp only [Node.ty, Node.name, Node.entries, Node.children,
      normEntries_eq_keepLast]
    exact ⟨trivial, trivial, trivial, fun k => keepLast_filter_key es k,
      keepLast_filter_none es, keepLast_sublist es, trivial⟩

/-- Whitespace skipping never lengthens the input. -/
theorem skip_ws_nl_len (s : List Char) (off : Nat) :
    (skip_ws_nl s off).1.length ≤ s.length := by
  induction s generalizing off with
  | nil => simp [skip_ws_nl]
  | cons c rest ih =>
    unfold skip_ws_nl
    by_cases hc : (space c || newline c) = true
    · rw [if_pos hc]
      exact Nat.le_trans (ih (off + c.utf8Size)) (by simp)
    · rw [if_neg hc]

/-- The hex-digit scanner never lengthens the input. -/
theorem uescape_len (k : Nat) :
    ∀ s off ds s' o', uescape_digits k s off = .ok (ds, s', o') →
      s'.length ≤ s.length := by
  induction k with
  | zero =>
    intro s off ds s' o' h
    simp only [uescape_digits, Except.ok.injEq, Prod.mk.injEq] at h
    obtain ⟨_, rfl, _⟩ := h
    exact Nat.le_refl _
  | succ k ih =>
    intro s off ds s' o' h
    cases s with
    | nil => exact absurd h (by simp [uescape_digits])
    | cons c rest =>
      unfold uescape_digits at h
      dsimp only at h
      by_cases h1 : (c.isDigit || ('a' ≤ c && c ≤ 'f') || ('A' ≤ c && c ≤ 'F')) = true
      · rw [if_pos h1] at h
        cases hu : uescape_digits k rest (off + 1) with
        | error e => rw [hu] at h; simp [Bind.bind, Except.bind] at h
        | ok trip =>
          obtain ⟨ds2, s2, o2⟩ := trip
          rw [hu] at h
          simp only [Bind.bind, Except.bind, Except.ok.injEq, Prod.mk.injEq] at h
          obtain ⟨_, rfl, _⟩ := h
          exact Nat.le_trans (ih rest (off + 1) ds2 s2 o2 hu) (by simp)
      · rw [if_neg h1] at h
        by_cases h2 : c = rbraceC
        · rw [if_pos h2] at h
          simp only [Except.ok.injEq, Prod.mk.injEq] at h
          obtain ⟨_, rfl, _⟩ := h
          exact Nat.le_refl _
        · rw [if_neg h2] at h
          simp at h

/-- A successful escape consumes at least one character after the backslash
and yields at most one character. -/
theorem escape_len (s : List Char) (off : Nat) (ch : Option Char) (s' : List Char)
    (o' : Nat) (h : escape s off = .ok (ch, s', o')) :
    s'.length < s.length ∧ ch.toList.length ≤ 1 := by
  have hopt : ∀ (x : Option Char), x.toList.length ≤ 1 := by
    intro x; cases x <;> simp
  cases s with
  | nil => exact absurd h (by simp [escape])
  | cons c rest =>
    unfold escape at h
    dsimp only at h
    by_cases h1 : c = 'n'
    · rw [if_pos h1] at h
      simp only [Except.ok.injEq, Prod.mk.injEq] at h
      obtain ⟨_, rfl, _⟩ := h
      exact ⟨by simp, hopt ch⟩
    · rw [if_neg h1] at h
      by_cases h2 : c = 'r'
      · rw [if_pos h2] at h
        simp only [Except.ok.injEq, Prod.mk.injEq] at h
        obtain ⟨_, rfl, _⟩ := h
        exact ⟨by simp, hopt ch⟩
      · rw [if_neg h2] at h
        by_cases h3 : c = 't'
        · rw [if_pos h3] at h
          simp only [Except.ok.injEq, Prod.mk.injEq] at h
          obtain ⟨_, rfl, _⟩ := h
          exact ⟨by simp, hopt ch⟩
        · rw [if_neg h3] at h
          by_cases h4 : c = bsC
          · rw [if_pos h4] at h
            simp only [Except.ok.injEq, Prod.mk.injEq] at h
            obtain ⟨_, rfl, _⟩ := h
            exact ⟨by simp, hopt ch⟩
          · rw [if_neg h4] at h
            by_cases h5 : c = dquoteC
            · rw [if_pos h5] at h
              simp only [Except.ok.injEq, Prod.mk.injEq] at h
              obtain ⟨_, rfl, _⟩ := h
              exact ⟨by simp, hopt ch⟩
            · rw [if_neg h5] at h
              by_cases h6 : c = 'b'
              · rw [if_pos h6] at h
                simp only [Except.ok.injEq, Prod.mk.injEq] at h
                obtain ⟨_, rfl, _⟩ := h
                exact ⟨by simp, hopt ch⟩
              · rw [if_neg h6] at h
                by_cases h7 : c = 'f'
                · rw [if_pos h7] at h
                  simp only [Except.ok.injEq, Prod.mk.injEq] at h
                  obtain ⟨_, rfl, _⟩ := h
                  exact ⟨by simp, hopt ch⟩
                · rw [if_neg h7] at h
                  by_cases h8 : c = 's'
                  · rw [if_pos h8] at h
                    simp only [Except.ok.injEq, Prod.mk.injEq] at h
                    obtain ⟨_, rfl, _⟩ := h
                    exact ⟨by simp, hopt ch⟩
                  · rw [if_neg h8] at h
                    by_cases h9 : c = 'u'
                    · rw [if_pos h9] at h
                      cases rest with
                      | nil => simp at h
                      | cons b rest2 =>
                        dsimp only at h
                        by_cases hb : b = lbraceC
                        · rw [if_pos hb] at h
                          cases hu : uescape_digits 6 rest2 (off + 2) with
                          | error e => rw [hu] at h; simp at h
                          | ok trip =>
                            obtain ⟨ds, s2, o2⟩ := trip
                            rw [hu] at h
                            dsimp only at h
                            by_cases hds : ds.isEmpty
                            · rw [if_pos hds] at h
                              simp at h
                            · rw [if_neg hds] at h
                              cases s2 with
                              | nil => simp at h
                              | cons b2 rest3 =>
                                dsimp only at h
                                by_cases hb2 : b2 = rbraceC
                                · rw [if_pos hb2] at h
                                  by_cases hn : (hexVal ds < 0xD800 ||
                                      (0xE000 ≤ hexVal ds && hexVal ds ≤ 0x10FFFF)) = true
                                  · rw [if_pos hn] at h
                                    simp only [Except.ok.injEq, Prod.mk.injEq] at h
                                    obtain ⟨_, rfl, _⟩ := h
                                    have hl := uescape_len 6 rest2 (off + 2) ds
                                      (b2 :: rest3) o2 hu
                                    simp only [List.length_cons] at hl ⊢
                                    constructor
                                    · omega
                                    · exact hopt ch
                                  · rw [if_neg hn] at h
                                    simp at h
                                · rw [if_neg hb2] at h
                                  simp at h
                        · rw [if_neg hb] at h
                          simp at h
                    · rw [if_neg h9] at h
                      by_cases h10 : (space c || newline c) = true
                      · rw [if_pos h10] at h
                        rcases hsw : skip_ws_nl rest (off + c.utf8Size) with ⟨sw, ow⟩
                        rw [hsw] at h
                        simp only [Except.ok.injEq, Prod.mk.injEq] at h
                        obtain ⟨_, rfl, _⟩ := h
                        have hl := skip_ws_nl_len rest (off + c.utf8Size)
                        rw [hsw] at hl
                        simp only [List.length_cons] at hl ⊢
                        exact ⟨by omega, hopt ch⟩
                      · rw [if_neg h10] at h
                        simp at h

/-- Inversion of the single-line closing delimiter: it consumes the quote and
the raw hashes. -/
theorem string_end_single_len (s : List Char) (off raw : Nat) (s1 : List Char) (o1 : Nat)
    (h : string_end s off false raw = some (s1, o1)) :
    s.length = s1.length + 1 + raw := by
  cases s with
  | nil => simp [string_end] at h
  | cons a rest =>
    unfold string_end at h
    dsimp only at h
    by_cases ha : a = dquoteC
    · rw [if_pos ha] at h
      simp only [Bool.false_eq_true, if_false] at h
      by_cases hg : (raw ≤ rest.length && (rest.take raw).all (fun c => c = '#')) = true
      · rw [if_pos hg] at h
        simp only [Option.some.injEq, Prod.mk.injEq] at h
        obtain ⟨rfl, _⟩ := h
        simp only [Bool.and_eq_true, decide_eq_true_eq] at hg
        simp only [List.length_cons, List.length_drop]
        omega
      · rw [if_neg hg] at h
        simp at h
    · rw [if_neg ha] at h
      simp at h

/-- The multiline branch only ever returns an owned string (the dedent
always reassembles the text). -/
theorem quoted_multi_owned (raw : Nat) (fuel : Nat) :
    ∀ s off lines cow s1 o1,
      quoted_multi fuel raw s off lines = .ok (cow, s1, o1) → ∃ t, cow = .owned t := by
  induction fuel with
  | zero =>
    intro s off lines cow s1 o1 h
    exact absurd h (by rw [quoted_multi.eq_def]; simp)
  | succ fuel ih =>
    intro s off lines cow s1 o1 h
    cases s with
    | nil => exact absurd h (by rw [quoted_multi.eq_def]; simp)
    | cons c rest =>
      rw [quoted_multi.eq_def] at h
      dsimp only at h
      by_cases h1 : (c = bsC && raw = 0) = true
      · rw [if_pos h1] at h
        cases he : escape rest (off + 1) with
        | error e => rw [he] at h; simp [Bind.bind, Except.bind] at h
        | ok trip =>
          obtain ⟨ch, s2, o2⟩ := trip
          rw [he] at h
          simp only [Bind.bind, Except.bind] at h
          exact ih s2 o2 lines cow s1 o1 h
      · rw [if_neg h1] at h
        by_cases h2 : (c = dquoteC && rest.head? = some dquoteC &&
            rest.tail.head? = some dquoteC) = true
        · rw [if_pos h2] at h
          cases hse : string_end (c :: rest) off true raw with
          | some p =>
            obtain ⟨s2, o2⟩ := p
            rw [hse] at h
            dsimp only at h
            cases hd : dedent_multiline off lines raw with
            | error e => rw [hd] at h; simp [Bind.bind, Except.bind] at h
            | ok str =>
              rw [hd] at h
              simp only [Bind.bind, Except.bind, Except.ok.injEq, Prod.mk.injEq] at h
              exact ⟨str, h.1.symm⟩
          | none =>
            rw [hse] at h
            dsimp only at h
            exact ih (rest.drop 2) (off + 3) lines cow s1 o1 h
        · rw [if_neg h2] at h
          by_cases h3 : newline c = true
          · rw [if_pos h3] at h
            by_cases h4 : (c = '\r' && rest.head? = some '\n') = true
            · rw [if_pos h4] at h
              exact ih rest.tail (off + 2) _ cow s1 o1 h
            · rw [if_neg h4] at h
              exact ih rest (off + c.utf8Size) _ cow s1 o1 h
          · rw [if_neg h3] at h
            by_cases h5 : banned c = true
            · rw [if_pos h5] at h
              simp at h
            · rw [if_neg h5] at h
              by_cases h6 : lines.isEmpty = true
              · rw [if_pos h6] at h
                simp at h
              · rw [if_neg h6] at h
                exact ih rest (off + c.utf8Size) lines cow s1 o1 h

/-- Borrow-or-own invariant of the single-line loop: a borrowed result is
exactly the consumed source slice, and an owned accumulator is always
strictly shorter than the consumed slice (every escape shortens). -/
theorem quoted_single_spec (s0 : List Char) (raw : Nat) (fuel : Nat) :
    ∀ s off text cow s1 o1,
      quoted_single fuel s0 raw s off text = .ok (cow, s1, o1) →
      s.length ≤ s0.length →
      (∀ t, text = some t → t.length < s0.length - s.length) →
      (∀ t, cow = .borrowed t → t = s0.take (s0.length - s1.length - (1 + raw))) ∧
      (∀ t, cow = .owned t → t.length < s0.length - s1.length - (1 + raw)) := by
  induction fuel with
  | zero =>
    intro s off text cow s1 o1 h _ _
    exact absurd h (by rw [quoted_single.eq_def]; simp)
  | succ fuel ih =>
    intro s off text cow s1 o1 h hs hinv
    cases s with
    | nil => exact absurd h (by rw [quoted_single.eq_def]; simp)
    | cons c rest =>
      rw [quoted_single.eq_def] at h
      dsimp only at h
      by_cases h1 : (c = bsC && raw = 0) = true
      · rw [if_pos h1] at h
        cases he : escape rest (off + 1) with
        | error e => rw [he] at h; simp [Bind.bind, Except.bind] at h
        | ok trip =>
          obtain ⟨ch, s2, o2⟩ := trip
          rw [he] at h
          simp only [Bind.bind, Except.bind] at h
          have hel := escape_len rest (off + 1) ch s2 o2 he
          refine ih s2 o2 _ cow s1 o1 h ?_ ?_
          · simp only [List.length_cons] at hs
            omega
          · intro t ht
            injection ht with ht
            subst ht
            cases text with
            | none =>
              simp only [Option.getD_none, List.length_append, List.length_take,
                List.length_cons] at hs ⊢
              omega
            | some t' =>
              have hv := hinv t' rfl
              simp only [Option.getD_some, List.length_append, List.length_cons] at hv hs ⊢
              omega
      · rw [if_neg h1] at h
        by_cases h2 : c = dquoteC
        · rw [if_pos h2] at h
          cases hse : string_end (c :: rest) off false raw with
          | some p =>
            obtain ⟨s2, o2⟩ := p
            rw [hse] at h
            dsimp only at h
            have hlen := string_end_single_len (c :: rest) off raw s2 o2 hse
            simp only [Except.ok.injEq, Prod.mk.injEq] at h
            obtain ⟨hcow, h21, h22⟩ := h
            subst h21
            cases text with
            | none =>
              dsimp only [cowOf] at hcow
              constructor
              · intro t ht
                rw [← hcow] at ht
                injection ht with ht'
                subst ht'
                have hidx : s0.length - (c :: rest).length =
                    s0.length - s2.length - (1 + raw) := by
                  simp only [List.length_cons] at hlen ⊢
                  omega
                rw [hidx]
              · intro t ht
                rw [← hcow] at ht
                exact Cow.noConfusion ht
            | some t' =>
              dsimp only [cowOf] at hcow
              constructor
              · intro t ht
                rw [← hcow] at ht
                exact Cow.noConfusion ht
              · intro t ht
                rw [← hcow] at ht
                injection ht with ht'
                subst ht'
                have hv := hinv t' rfl
                simp only [List.length_cons] at hv hlen
                omega
          | none =>
            rw [hse] at h
            dsimp only at h
            refine ih rest (off + 1) _ cow s1 o1 h ?_ ?_
            · simp only [List.length_cons] at hs
              omega
            · intro t ht
              cases text with
              | none => simp at ht
              | some t' =>
                dsimp only [Option.map] at ht
                injection ht with ht'
                subst ht'
                have hv := hinv t' rfl
                simp only [List.length_cons, List.length_append, List.length_nil]
                  at hv hs ⊢
                omega
        · rw [if_neg h2] at h
          by_cases h3 : newline c = true
          · rw [if_pos h3] at h
            simp at h
          · rw [if_neg h3] at h
            by_cases h4 : banned c = true
            · rw [if_pos h4] at h
              simp at h
            · rw [if_neg h4] at h
              refine ih rest (off + c.utf8Size) _ cow s1 o1 h ?_ ?_
              · simp only [List.length_cons] at hs
                omega
              · intro t ht
                cases text with
                | none => simp at ht
                | some t' =>
                  dsimp only [Option.map] at ht
                  injection ht with ht'
                  subst ht'
                  have hv := hinv t' rfl
                  simp only [List.length_cons, List.length_append, List.length_nil]
                    at hv hs ⊢
                  omega

/-- Claim C6: for every quoted string accepted by the grammar, the result is
borrowed exactly when no escape or dedent changed the text. A multiline
literal (body starting with two more quotes) always dedents and returns an
owned string; a single-line literal returns a borrowed value exactly equal
to the consumed source slice, and whenever it returns an owned value that
value differs from the source slice (escapes strictly shorten it). -/
theorem c6_borrow_or_own (s0 : List Char) (off raw : Nat) (cow : Cow) (s1 : List Char)
    (o1 : Nat) (h : quoted_string s0 off raw = .ok (cow, s1, o1)) :
    (s0.take 2 = [dquoteC, dquoteC] → ∃ t, cow = .owned t) ∧
    (s0.take 2 ≠ [dquoteC, dquoteC] →
      (∀ t, cow = .borrowed t → t = s0.take (s0.length - s1.length - (1 + raw))) ∧
      (∀ t, cow = .owned t →
        t ≠ s0.take (s0.length - s1.length - (1 + raw)))) := by
  unfold quoted_string at h
  cases s0 with
  | nil =>
    dsimp only at h
    exact absurd h (by rw [quoted_single.eq_def]; simp)
  | cons a srest =>
    cases srest with
    | nil =>
      dsimp only at h
      constructor
      · intro hcon
        simp at hcon
      · intro _
        have hspec := quoted_single_spec [a] raw ([a].length + 1) [a] off none cow s1 o1 h
          (Nat.le_refl _) (by simp)
        refine ⟨hspec.1, ?_⟩
        intro t ht hcon
        have hlt := hspec.2 t ht
        rw [hcon, List.length_take] at hlt
        omega
    | cons b rest =>
      dsimp only at h
      by_cases hab : (a = dquoteC && b = dquoteC) = true
      · rw [if_pos hab] at h
        simp only [Bool.and_eq_true, decide_eq_true_eq] at hab
        obtain ⟨rfl, rfl⟩ := hab
        constructor
        · intro _
          exact quoted_multi_owned raw ((dquoteC :: dquoteC :: rest).length + 1) rest
            (off + 2) [] cow s1 o1 h
        · intro hcon
          exact absurd rfl hcon
      · rw [if_neg hab] at h
        constructor
        · intro hcon
          exfalso
          apply hab
          have hx : a = dquoteC ∧ b = dquoteC := by simpa using hcon
          simp [hx.1, hx.2]
        · intro _
          have hspec := quoted_single_spec (a :: b :: rest) raw
            ((a :: b :: rest).length + 1) (a :: b :: rest) off none cow s1 o1 h
            (Nat.le_refl _) (by simp)
          refine ⟨hspec.1, ?_⟩
          intro t ht hcon
          have hlt := hspec.2 t ht
          rw [hcon, List.length_take] at hlt
          omega

/-- A concrete run of the borrow-or-own theorem: the source `ab"x` (entered
after the opening quote) parses as the borrowed slice `ab`, and the theorem
identifies that slice. -/
theorem c6_borrow_or_own_witness :
    quoted_string ['a', 'b', dquoteC, 'x'] 0 0 =
      .ok (.borrowed ['a', 'b'], ['x'], 3) ∧
    (['a', 'b', dquoteC, 'x'].take 2 ≠ [dquoteC, dquoteC]) ∧
    (∀ t, Cow.borrowed ['a', 'b'] = .borrowed t → t = ['a', 'b']) := by
  have h0 : quoted_string ['a', 'b', dquoteC, 'x'] 0 0 =
      .ok (.borrowed ['a', 'b'], ['x'], 3) := by rfl
  refine ⟨h0, by decide, ?_⟩
  have h := (c6_borrow_or_own ['a', 'b', dquoteC, 'x'] 0 0 (.borrowed ['a', 'b'])
    ['x'] 3 h0).2 (by decide)
  intro t ht
  have h2 := h.1 t ht
  rw [h2]
  rfl

end Kdl
